import Mathlib

/-!
# etcenvconfig.Process and httpsutil: a shallow embedding

The Go package `etcenvconfig` fills the settable fields of a struct from
environment variables, fallback files and struct-tag defaults.  This file
embeds `Process` (src/etcenvconfig/etcenvconfig.go) as a pure function over an
explicit world (environment, file system) and proves properties of it.

Conventions of the embedding:

* Go strings are Lean `String`s (sequences of code points); the functions on
  them are written over the list of characters so that they evaluate.
* The environment and the file system are read-only during `Process`; they
  are the fields `getenv` and `readFile` of `World`.
* Every read that `Process` performs is recorded, in order, in a trace of
  `Effect`s.
* The standard-library functions that `Process` calls (`strings.ToUpper`,
  `strings.Replace`, `path.Join`, `strconv.ParseInt`, `strconv.ParseBool`) are
  modelled after the Go standard library (Go 1.13 and later).
* `strconv.ParseFloat` is modelled as far as its syntax goes without floating
  point: a text holding a byte that no float literal holds is rejected; the
  conversion of every other text, and the Unicode case table, are parameters
  of `World`.
-/

set_option autoImplicit false

namespace Goutil

/-! ## Standard library: package strings -/

/-- The ASCII branch of `unicode.ToUpper`: a letter in a..z is moved to A..Z,
every other character is returned as it is. -/
def asciiUpper (c : Char) : Char :=
  if 97 ≤ c.toNat ∧ c.toNat ≤ 122 then Char.ofNat (c.toNat - 32) else c

/-- The function `unicode.ToUpper`: ASCII runes (at most 0x7F) take the ASCII
branch, the others are looked up in the Unicode case table `table`. -/
def toUpperRune (table : Char → Char) (c : Char) : Char :=
  if c.toNat ≤ 127 then asciiUpper c else table c

/-- The function `strings.ToUpper`: every rune is mapped by `unicode.ToUpper`. -/
def stringsToUpper (table : Char → Char) (s : String) : String :=
  String.mk (s.data.map (toUpperRune table))

/-- The call `strings.Replace(s, old, new, -1)` for one-character `old` and
`new`: every occurrence is replaced. -/
def stringsReplaceAll (old new : Char) (s : String) : String :=
  String.mk (s.data.map fun c => if c = old then new else c)

/-! ## Standard library: package path -/

/-- Splits a path at every slash; the segments may be empty. -/
def splitSlash : List Char → List (List Char)
  | [] => [[]]
  | c :: cs =>
    if c = '/' then [] :: splitSlash cs
    else
      match splitSlash cs with
      | [] => [[c]]
      | seg :: segs => (c :: seg) :: segs

/-- One step of `path.Clean` over the stack of kept elements (last kept element
first): empty and `.` elements are dropped, `..` removes the last kept real
element, is dropped at the root, and is kept otherwise. -/
def cleanStep (rooted : Bool) (stack : List (List Char)) (seg : List Char) :
    List (List Char) :=
  if seg = [] ∨ seg = ['.'] then stack
  else if seg = ['.', '.'] then
    match stack with
    | top :: below => if top = ['.', '.'] then seg :: stack else below
    | [] => if rooted then [] else [seg]
  else seg :: stack

/-- The function `path.Clean`. -/
def pathClean (p : String) : String :=
  match p.data with
  | [] => "."
  | c :: cs =>
    let rooted : Bool := c = '/'
    let kept := ((splitSlash (c :: cs)).foldl (cleanStep rooted) []).reverse
    let body := List.intercalate ['/'] kept
    let out := if rooted then '/' :: body else body
    if out = [] then "." else String.mk out

/-- The function `path.Join` for two elements: empty elements are ignored, the
others are joined by a slash and the result is cleaned; two empty elements
give the empty string. -/
def pathJoin (a b : String) : String :=
  if a = "" ∧ b = "" then ""
  else if a = "" then pathClean b
  else if b = "" then pathClean a
  else pathClean (a ++ "/" ++ b)

/-! ## Standard library: package strconv -/

/-- The two kinds of `strconv.NumError` that parsing returns. -/
inductive NumErr where
  | syntaxErr
  | rangeErr
  deriving DecidableEq

/-- The helper `lower` of strconv on a byte: the byte with bit 0x20 set. -/
def lowerByte (c : Char) : Nat := c.toNat ||| 32

/-- The digit value of a byte in `ParseUint`, `none` when the byte is neither a
digit nor a letter. -/
def digitVal (c : Char) : Option Nat :=
  if 48 ≤ c.toNat ∧ c.toNat ≤ 57 then some (c.toNat - 48)
  else if 97 ≤ lowerByte c ∧ lowerByte c ≤ 122 then some (lowerByte c - 97 + 10)
  else none

/-- The digit loop of `strconv.ParseUint`: `n` is the value so far and
`underscores` records whether an underscore was skipped.  The result is the
pair (value, underscores) or the error with the value returned beside it. -/
def parseUintLoop (base : Nat) (base0 : Bool) (cutoff maxVal : Nat) :
    List Char → Nat → Bool → Except (Nat × NumErr) (Nat × Bool)
  | [], n, underscores => .ok (n, underscores)
  | c :: cs, n, underscores =>
    if c = '_' ∧ base0 = true then parseUintLoop base base0 cutoff maxVal cs n true
    else
      match digitVal c with
      | none => .error (0, .syntaxErr)
      | some d =>
        if d ≥ base then .error (0, .syntaxErr)
        else if n ≥ cutoff then .error (maxVal, .rangeErr)
        else
          let n0 := n * base % 2 ^ 64
          let n1 := (n0 + d) % 2 ^ 64
          if n1 < n0 ∨ n1 > maxVal then .error (maxVal, .rangeErr)
          else parseUintLoop base base0 cutoff maxVal cs n1 underscores

/-- The loop of `underscoreOK`; `saw` is the last character class seen:
0 for the start, 1 for a digit or base marker, 2 for an underscore, 3 for
anything else. -/
def underscoreLoop (hex : Bool) : List Char → Nat → Bool
  | [], saw => saw != 2
  | c :: cs, saw =>
    if (48 ≤ c.toNat ∧ c.toNat ≤ 57) ∨
        (hex = true ∧ 97 ≤ lowerByte c ∧ lowerByte c ≤ 102) then
      underscoreLoop hex cs 1
    else if c = '_' then
      if saw != 1 then false else underscoreLoop hex cs 2
    else if saw == 2 then false
    else underscoreLoop hex cs 3

/-- The function `underscoreOK` of strconv: underscores may only separate
digits (a base marker counts as a digit). -/
def underscoreOK (s : List Char) : Bool :=
  let s1 := match s with
    | c :: cs => if c = '-' ∨ c = '+' then cs else s
    | [] => s
  match s1 with
  | c0 :: c1 :: rest =>
    if c0 = '0' ∧ (lowerByte c1 = 98 ∨ lowerByte c1 = 111 ∨ lowerByte c1 = 120) then
      underscoreLoop (lowerByte c1 == 120) rest 1
    else underscoreLoop false s1 0
  | _ => underscoreLoop false s1 0

/-- The base and the digits that `ParseUint` with base 0 reads off a non-empty
string: `0b`, `0o`, `0x` followed by at least one more byte select base 2, 8,
16; another leading `0` selects base 8; anything else is base 10. -/
def splitBase (s : List Char) : Nat × List Char :=
  match s with
  | c0 :: c1 :: c2 :: rest =>
    if c0 = '0' then
      if lowerByte c1 = 98 then (2, c2 :: rest)
      else if lowerByte c1 = 111 then (8, c2 :: rest)
      else if lowerByte c1 = 120 then (16, c2 :: rest)
      else (8, c1 :: c2 :: rest)
    else (10, s)
  | c0 :: rest => if c0 = '0' then (8, rest) else (10, s)
  | [] => (10, s)

/-- The call `strconv.ParseUint(s, 0, bitSize)` for `1 ≤ bitSize ≤ 64`: the
returned value and the error, if any. -/
def parseUint (s : List Char) (bitSize : Nat) : Nat × Option NumErr :=
  if s = [] then (0, some .syntaxErr)
  else
    let bd := splitBase s
    let cutoff := (2 ^ 64 - 1) / bd.1 + 1
    let maxVal := 2 ^ bitSize - 1
    match parseUintLoop bd.1 true cutoff maxVal bd.2 0 false with
    | .error (v, e) => (v, some e)
    | .ok (n, underscores) =>
      if underscores = true ∧ underscoreOK s = false then (0, some .syntaxErr)
      else (n, none)

/-- The call `strconv.ParseInt(s, 0, bitSize)` for `1 ≤ bitSize ≤ 64`: the
returned value and the error, if any. -/
def parseInt (s : String) (bitSize : Nat) : Int × Option NumErr :=
  match s.data with
  | [] => (0, some .syntaxErr)
  | c :: cs =>
    let neg : Bool := c = '-'
    let digits := if c = '+' ∨ c = '-' then cs else c :: cs
    match parseUint digits bitSize with
    | (_, some .syntaxErr) => (0, some .syntaxErr)
    | (un, _) =>
      let cutoff := 2 ^ (bitSize - 1)
      if neg = false ∧ un ≥ cutoff then ((cutoff : Int) - 1, some .rangeErr)
      else if neg = true ∧ un > cutoff then (-(cutoff : Int), some .rangeErr)
      else (if neg then -(un : Int) else (un : Int), none)

/-- The function `strconv.ParseBool`. -/
def parseBool (s : String) : Option Bool :=
  if s = "1" ∨ s = "t" ∨ s = "T" ∨ s = "true" ∨ s = "TRUE" ∨ s = "True" then some true
  else if s = "0" ∨ s = "f" ∨ s = "F" ∨ s = "false" ∨ s = "FALSE" ∨ s = "False" then
    some false
  else none

/-- Whether a byte can stand in a text that `strconv.ParseFloat` accepts: the
scan of `ParseFloat` consumes only a sign, digits, a dot, underscores and ASCII
letters (hex digits, the markers `x`, `e`, `p`, and the letters of `inf`,
`infinity` and `nan`), and a text that is not consumed whole is a syntax
error. -/
def floatByte (c : Char) : Bool :=
  decide (c = '+' ∨ c = '-' ∨ c = '.' ∨ c = '_' ∨ (48 ≤ c.toNat ∧ c.toNat ≤ 57) ∨
    (65 ≤ c.toNat ∧ c.toNat ≤ 90) ∨ (97 ≤ c.toNat ∧ c.toNat ≤ 122))

/-! ## The data model of Process -/

/-- The value held by a struct field, by `reflect.Kind`: a string, a signed
integer of the given bit width, a boolean, a float of the given bit width
(the float is kept as the token that `ParseFloat` returned), or a value of any
other kind, which `Process` never looks into. -/
inductive Value where
  | str (s : String)
  | int (bits : Nat) (n : Int)
  | bool (b : Bool)
  | float (bits : Nat) (x : Nat)
  | other (payload : Nat)
  deriving DecidableEq

/-- One field of the target struct: its name, whether `CanSet` holds (the
field is exported), the values of the struct tags `etcenvconfig`, `default`
and `required` (empty when the tag is absent), the result of
`f.Type().String()`, and the value it holds. -/
structure Field where
  name : String
  canSet : Bool
  alt : String
  dflt : String
  req : String
  typeName : String
  value : Value
  deriving DecidableEq

/-- The errors that `Process` returns: `ErrInvalidSpecification`, an error
built by `fmt.Errorf` (it carries only its message), and `*ParseError`. -/
inductive Error where
  | invalidSpecification
  | errorf (msg : String)
  | parseError (fieldName typeName value : String)
  deriving DecidableEq

/-- The text returned by the `Error()` method of an error. -/
def Error.message : Error → String
  | .invalidSpecification => "invalid specification must be a struct"
  | .errorf msg => msg
  | .parseError fieldName typeName value =>
    "etcenvconfig.Process: assigning " ++ fieldName ++ ": converting \x27" ++ value ++
      "\x27 to type " ++ typeName

/-- A read of the outside world made by `Process`. -/
inductive Effect where
  | getenv (key : String)
  | readFile (path : String)
  deriving DecidableEq

/-- The world `Process` runs in: `getenv` is `os.Getenv` (the empty string for
an unset variable), `readFile` is `ioutil.ReadFile` (the contents, or the text
of the error), `upperTable` is the Unicode upper-case mapping of the non-ASCII
runes, and `parseFloat` is `strconv.ParseFloat` (`none` on an error) on the
texts made of the bytes a float literal can hold. -/
structure World where
  getenv : String → String
  readFile : String → Except String String
  upperTable : Char → Char
  parseFloat : String → Nat → Option Nat

/-- The function `strconv.ParseFloat`: a text holding a byte that no float
literal holds is a syntax error; every other text is converted, or rejected,
by the `parseFloat` of the world. -/
def strconvParseFloat (w : World) (s : String) (bitSize : Nat) : Option Nat :=
  if s.data.all floatByte = true then w.parseFloat s bitSize else none

/-- The target handed to `Process`: a pointer to a struct with the given
fields, a pointer whose element is not a struct (a nil pointer included: its
element has the invalid kind), or a value that is not a pointer, on which
`reflect.Value.Elem` panics. -/
inductive Spec where
  | structPtr (fields : List Field)
  | otherPtr (payload : Nat)
  | nonPtr (payload : Nat)
  deriving DecidableEq

/-! ## Process, field by field -/

/-- The name used for the lookups (lines 45-49): the `etcenvconfig` tag when it
is not empty, the name of the field otherwise. -/
def lookupName (f : Field) : String :=
  if f.alt ≠ "" then f.alt else f.name

/-- The environment key of a field (line 50). -/
def envKey (w : World) (f : Field) : String :=
  stringsToUpper w.upperTable (stringsReplaceAll '-' '_' (lookupName f))

/-- The fallback file of a field (line 53). -/
def configFile (configPath : String) (f : Field) : String :=
  pathJoin configPath (lookupName f)

/-- What the resolution of a field (lines 45-72) ends in: a non-empty value
that goes on to the type switch, a skip (`continue`), or a returned error. -/
inductive Resolved where
  | value (v : String)
  | skip
  | fail (e : Error)
  deriving DecidableEq

/-- Lines 61-72: the default replaces an empty value, and a value that is still
empty is an error for a required field and a skip otherwise. -/
def applyDefault (f : Field) (key value : String) : Resolved :=
  let value := if f.dflt ≠ "" ∧ value = "" then f.dflt else value
  if value = "" then
    if f.req = "true" then .fail (.errorf ("required key " ++ key ++ " missing value"))
    else .skip
  else .value value

/-- Lines 45-72: the environment variable, then the fallback file (read only
when the variable is empty; a failed read is returned as an error), then the
default and the required check.  The reads are returned beside the result. -/
def resolve (w : World) (configPath : String) (f : Field) : Resolved × List Effect :=
  let key := envKey w f
  let value := w.getenv key
  if value = "" then
    let file := configFile configPath f
    match w.readFile file with
    | .error err =>
      (.fail (.errorf ("error reading config file " ++ file ++ ": " ++ err)),
        [.getenv key, .readFile file])
    | .ok data => (applyDefault f key data, [.getenv key, .readFile file])
  else (applyDefault f key value, [.getenv key])

/-- The conversion `intN(x)` made by `reflect.Value.SetInt` on a field of the
given bit width. -/
def wrapInt (bits : Nat) (x : Int) : Int :=
  (x + 2 ^ (bits - 1)) % 2 ^ bits - 2 ^ (bits - 1)

/-- What the loop body does with one settable field: the loop goes on with the
field holding a value, or `Process` returns an error. -/
inductive Step where
  | next (v : Value)
  | fail (e : Error)
  deriving DecidableEq

/-- The type switch (lines 74-107) on the kind of the field, for the resolved
value `value`; `fieldName` is the lookup name and `typeName` the name of the
type of the field. -/
def assign (w : World) (fieldName typeName value : String) : Value → Step
  | .str _ => .next (.str value)
  | .int bits _ =>
    match parseInt value bits with
    | (n, none) => .next (.int bits (wrapInt bits n))
    | (_, some _) => .fail (.parseError fieldName typeName value)
  | .bool _ =>
    match parseBool value with
    | some b => .next (.bool b)
    | none => .fail (.parseError fieldName typeName value)
  | .float bits _ =>
    match strconvParseFloat w value bits with
    | some x => .next (.float bits x)
    | none => .fail (.parseError fieldName typeName value)
  | .other payload => .next (.other payload)

/-- The loop body (lines 45-107) for one settable field. -/
def processField (w : World) (configPath : String) (f : Field) : Step × List Effect :=
  match resolve w configPath f with
  | (.fail e, tr) => (.fail e, tr)
  | (.skip, tr) => (.next f.value, tr)
  | (.value v, tr) => (assign w (lookupName f) f.typeName v f.value, tr)

/-- The state when the loop over the fields ends: the fields, the returned
error (`none` for nil) and the reads made, in order. -/
structure Run where
  fields : List Field
  err : Option Error
  trace : List Effect
  deriving DecidableEq

/-- The field `f` holding the value `v`. -/
def Field.withValue (f : Field) (v : Value) : Field :=
  ⟨f.name, f.canSet, f.alt, f.dflt, f.req, f.typeName, v⟩

/-- The loop of lines 42-110 over the fields in declaration order: a field
that cannot be set is passed over, a settable field is processed, and the
first error ends the loop with the remaining fields untouched. -/
def processFields (w : World) (configPath : String) : List Field → Run
  | [] => ⟨[], none, []⟩
  | f :: rest =>
    if f.canSet = true then
      match processField w configPath f with
      | (.fail e, tr) => ⟨f :: rest, some e, tr⟩
      | (.next v, tr) =>
        let r := processFields w configPath rest
        ⟨f.withValue v :: r.fields, r.err, tr ++ r.trace⟩
    else
      let r := processFields w configPath rest
      ⟨f :: r.fields, r.err, r.trace⟩

/-- How a call of `Process` ends: it returns (nil or an error) or it panics. -/
inductive Result where
  | returned (err : Option Error)
  | panicked
  deriving DecidableEq

/-- A finished call of `Process`: the target as it is left, how the call
ended, and the reads made. -/
structure Outcome where
  spec : Spec
  result : Result
  trace : List Effect
  deriving DecidableEq

/-- The function `Process` (lines 36-111). -/
def Process (w : World) (configPath : String) : Spec → Outcome
  | .nonPtr payload => ⟨.nonPtr payload, .panicked, []⟩
  | .otherPtr payload => ⟨.otherPtr payload, .returned (some .invalidSpecification), []⟩
  | .structPtr fields =>
    let r := processFields w configPath fields
    ⟨.structPtr r.fields, .returned r.err, r.trace⟩

/-! ## Sample worlds and fields -/

/-- A world given by a list of environment variables and a list of files;
reading a file that is not listed fails the way `ioutil.ReadFile` does, the
case table is the identity and no float literal converts. -/
def sampleWorld (env files : List (String × String)) : World where
  getenv key := ((env.lookup key).getD "")
  readFile path :=
    match files.lookup path with
    | some data => .ok data
    | none => .error ("open " ++ path ++ ": no such file or directory")
  upperTable c := c
  parseFloat _ _ := none

/-- A required integer field `Port`, holding 0. -/
def portField : Field := ⟨"Port", true, "", "", "true", "int", .int 64 0⟩

/-- A boolean field `Debug` with the default "false", holding true. -/
def debugField : Field := ⟨"Debug", true, "", "false", "", "bool", .bool true⟩

/-- A required string field `Name`, holding "old". -/
def nameField : Field := ⟨"Name", true, "", "", "true", "string", .str "old"⟩

/-- An integer field `Timeout` with no tags, holding 30. -/
def timeoutField : Field := ⟨"Timeout", true, "", "", "", "int", .int 64 30⟩

/-- A string field `Host` with the alternate name "db-host", holding "". -/
def hostField : Field := ⟨"Host", true, "db-host", "", "", "string", .str ""⟩

/-- A boolean field `Verbose` with the default "yes", holding false. -/
def verboseField : Field := ⟨"Verbose", true, "", "yes", "", "bool", .bool false⟩

/-- An integer field `Timeout` with the alternate name "timeout-secs". -/
def altTimeoutField : Field := ⟨"Timeout", true, "timeout-secs", "", "", "int", .int 64 30⟩

/-- A string field `Title` with the default "untitled", holding "old". -/
def titleField : Field := ⟨"Title", true, "", "untitled", "", "string", .str "old"⟩

/-- Whether the value `value` fails to convert to the type of an integer,
boolean or floating-point field holding `v` (false for every other kind). -/
def parseFails (w : World) (value : String) : Value → Bool
  | .int bits _ => (parseInt value bits).2.isSome
  | .bool _ => (parseBool value).isNone
  | .float bits _ => (strconvParseFloat w value bits).isNone
  | _ => false

/-- The field `g` after the loop body ran on it without an error: a settable
field holds the value the body gave it, any other field is as it was. -/
def stepField (w : World) (configPath : String) (g : Field) : Field :=
  if g.canSet = true then
    match (processField w configPath g).1 with
    | .next v => g.withValue v
    | .fail _ => g
  else g

/-- The field at position `i` of the target as `Process` leaves it. -/
def Outcome.fieldAt (o : Outcome) (i : Nat) : Option Field :=
  match o.spec with
  | .structPtr fields => fields[i]?
  | _ => none

/-- Whether a field is of one of the kinds whose value is parsed: signed
integer, boolean or floating point. -/
def Value.isParsed : Value → Bool
  | .int _ _ => true
  | .bool _ => true
  | .float _ _ => true
  | _ => false

/-- A world like `sampleWorld` in which `parseFloat` converts every text it is
asked about to the token 1. -/
def floatWorld (env files : List (String × String)) : World where
  getenv key := ((env.lookup key).getD "")
  readFile path :=
    match files.lookup path with
    | some data => .ok data
    | none => .error ("open " ++ path ++ ": no such file or directory")
  upperTable c := c
  parseFloat _ _ := some 1

/-- A float field `Scale` with no tags, holding the token 0. -/
def scaleField : Field := ⟨"Scale", true, "", "", "", "float64", .float 64 0⟩

/-- An unexported string field `secret`, tagged required, holding "s3". -/
def secretField : Field := ⟨"secret", false, "", "", "true", "string", .str "s3"⟩

/-- A field `Tags` of a slice type, holding an opaque value. -/
def tagsField : Field := ⟨"Tags", true, "", "", "", "[]string", .other 7⟩

/-! ## Numerals, as the base-0 notation of Go writes them -/

/-- The number written by a run of digits in the given base, starting from
`n`; underscores are skipped; `none` when a character is not a digit of the
base.  The number is not bounded. -/
def digitsValue (base : Nat) : List Char → Nat → Option Nat
  | [], n => some n
  | c :: cs, n =>
    if c = '_' then digitsValue base cs n
    else
      match digitVal c with
      | some d => if d < base then digitsValue base cs (n * base + d) else none
      | none => none

/-- The natural number denoted by an unsigned numeral: a base marker (`0b`,
`0o`, `0x`, or a leading `0` for octal; decimal otherwise), then digits of
that base, with underscores only between digits. -/
def literalValue (s : List Char) : Option Nat :=
  if s = [] ∨ underscoreOK s = false then none
  else digitsValue (splitBase s).1 (splitBase s).2 0

/-- The integer denoted by a numeral: an optional sign and an unsigned
numeral. -/
def numeralValue (s : String) : Option Int :=
  match s.data with
  | [] => none
  | c :: cs =>
    if c = '-' then (literalValue cs).map fun m => -(m : Int)
    else if c = '+' then (literalValue cs).map fun m => (m : Int)
    else (literalValue (c :: cs)).map fun m => (m : Int)

/-! ## Package httpsutil -/

/-- The function `SSLEnabled` (src/https/util.go, lines 24-26). -/
def SSLEnabled (getenv : String → String) : Bool :=
  getenv "SSL_ENABLED" != "0" && getenv "SSL_ENABLED" != "false"

/-- The package variable `DefaultSSLChecker` with the value the package gives
it (line 9). -/
def DefaultSSLChecker : (String → String) → Bool := SSLEnabled

/-- The server that `RunHTTPSConditionally` starts; the handler is an opaque
token. -/
inductive Served where
  | listenAndServeTLS (addr certFile keyFile : String) (handler : Nat)
  | listenAndServe (addr : String) (handler : Nat)
  deriving DecidableEq

/-- What a call of `RunHTTPSConditionally` does: the line it logs and the
server it starts. -/
structure Launch where
  logged : String
  served : Served
  deriving DecidableEq

/-- The function `RunHTTPSConditionally` (lines 13-22); `checker` is the value
of the package variable `DefaultSSLChecker` at the call. -/
def RunHTTPSConditionally (checker : (String → String) → Bool) (getenv : String → String)
    (addr certFile keyFile : String) (handler : Nat) : Launch :=
  ⟨"[http] listening on " ++ addr ++ "\n",
    if checker getenv = true then .listenAndServeTLS addr certFile keyFile handler
    else .listenAndServe addr handler⟩

/-! ## Helper lemmas on the loop -/

theorem processFields_length (w : World) (configPath : String) (fields : List Field) :
    (processFields w configPath fields).fields.length = fields.length := by
  induction fields with
  | nil => rfl
  | cons f rest ih =>
    unfold processFields
    split
    · split <;> simp [ih]
    · simp [ih]

theorem processFields_cons_next (w : World) (configPath : String) (f : Field)
    (post : List Field) (v : Value) (tr : List Effect) (hset : f.canSet = true)
    (hstep : processField w configPath f = (.next v, tr)) :
    processFields w configPath (f :: post) =
      ⟨f.withValue v :: (processFields w configPath post).fields,
        (processFields w configPath post).err,
        tr ++ (processFields w configPath post).trace⟩ := by
  rw [processFields]
  simp [hset, hstep]

theorem processFields_cons_fail (w : World) (configPath : String) (f : Field)
    (post : List Field) (e : Error) (tr : List Effect) (hset : f.canSet = true)
    (hstep : processField w configPath f = (.fail e, tr)) :
    processFields w configPath (f :: post) = ⟨f :: post, some e, tr⟩ := by
  rw [processFields]
  simp [hset, hstep]

theorem processFields_cons_skip (w : World) (configPath : String) (f : Field)
    (post : List Field) (hset : ¬ f.canSet = true) :
    processFields w configPath (f :: post) =
      ⟨f :: (processFields w configPath post).fields,
        (processFields w configPath post).err,
        (processFields w configPath post).trace⟩ := by
  rw [processFields]
  simp [hset]

theorem processFields_append_ok (w : World) (configPath : String) (pre post : List Field)
    (hpre : (processFields w configPath pre).err = none) :
    processFields w configPath (pre ++ post) =
      ⟨(processFields w configPath pre).fields ++ (processFields w configPath post).fields,
        (processFields w configPath post).err,
        (processFields w configPath pre).trace ++ (processFields w configPath post).trace⟩ := by
  induction pre with
  | nil => simp [processFields]
  | cons f rest ih =>
    rw [List.cons_append]
    by_cases hset : f.canSet = true
    · rcases hstep : processField w configPath f with ⟨step, tr⟩
      cases step with
      | fail e =>
        rw [processFields_cons_fail w configPath f rest e tr hset hstep] at hpre
        simp at hpre
      | next v =>
        rw [processFields_cons_next w configPath f rest v tr hset hstep] at hpre
        rw [processFields_cons_next w configPath f rest v tr hset hstep,
          processFields_cons_next w configPath f (rest ++ post) v tr hset hstep, ih hpre]
        simp
    · rw [processFields_cons_skip w configPath f rest hset] at hpre
      rw [processFields_cons_skip w configPath f rest hset,
        processFields_cons_skip w configPath f (rest ++ post) hset, ih hpre]
      simp

/-- When the fields before `f` raise no error and `f` is processed with the
value `v`, the loop goes on with the fields after `f`. -/
theorem process_reach_next (w : World) (configPath : String) (pre post : List Field)
    (f : Field) (v : Value) (tr : List Effect)
    (hpre : (processFields w configPath pre).err = none) (hset : f.canSet = true)
    (hstep : processField w configPath f = (.next v, tr)) :
    Process w configPath (.structPtr (pre ++ f :: post)) =
      ⟨.structPtr ((processFields w configPath pre).fields ++
          f.withValue v :: (processFields w configPath post).fields),
        .returned (processFields w configPath post).err,
        (processFields w configPath pre).trace ++
          (tr ++ (processFields w configPath post).trace)⟩ := by
  simp [Process, processFields_append_ok w configPath pre _ hpre,
    processFields_cons_next w configPath f post v tr hset hstep]

/-- When the fields before `f` raise no error and `f` fails with `e`, the call
returns `e` and leaves `f` and the fields after it as they were. -/
theorem process_reach_fail (w : World) (configPath : String) (pre post : List Field)
    (f : Field) (e : Error) (tr : List Effect)
    (hpre : (processFields w configPath pre).err = none) (hset : f.canSet = true)
    (hstep : processField w configPath f = (.fail e, tr)) :
    Process w configPath (.structPtr (pre ++ f :: post)) =
      ⟨.structPtr ((processFields w configPath pre).fields ++ f :: post),
        .returned (some e),
        (processFields w configPath pre).trace ++ tr⟩ := by
  simp [Process, processFields_append_ok w configPath pre _ hpre,
    processFields_cons_fail w configPath f post e tr hset hstep]

theorem fieldAt_mid (w : World) (configPath : String) (pre : List Field) (g : Field)
    (tail : List Field) (res : Result) (tr : List Effect) :
    Outcome.fieldAt ⟨.structPtr ((processFields w configPath pre).fields ++ g :: tail),
      res, tr⟩ pre.length = some g := by
  simp only [Outcome.fieldAt]
  rw [List.getElem?_append_right (by rw [processFields_length])]
  simp [processFields_length]

theorem applyDefault_of_ne (f : Field) (key value : String) (h : value ≠ "") :
    applyDefault f key value = .value value := by
  simp [applyDefault, h]

theorem resolve_env (w : World) (configPath : String) (f : Field)
    (henv : w.getenv (envKey w f) ≠ "") :
    resolve w configPath f =
      (.value (w.getenv (envKey w f)), [.getenv (envKey w f)]) := by
  simp [resolve, henv, applyDefault_of_ne]

theorem resolve_read_error (w : World) (configPath : String) (f : Field) (cause : String)
    (henv : w.getenv (envKey w f) = "")
    (hread : w.readFile (configFile configPath f) = .error cause) :
    resolve w configPath f =
      (.fail (.errorf ("error reading config file " ++ configFile configPath f ++ ": " ++ cause)),
        [.getenv (envKey w f), .readFile (configFile configPath f)]) := by
  simp [resolve, henv, hread]

theorem resolve_read_ok (w : World) (configPath : String) (f : Field) (data : String)
    (henv : w.getenv (envKey w f) = "")
    (hread : w.readFile (configFile configPath f) = .ok data) :
    resolve w configPath f =
      (applyDefault f (envKey w f) data,
        [.getenv (envKey w f), .readFile (configFile configPath f)]) := by
  simp [resolve, henv, hread]

theorem withValue_self (f : Field) : f.withValue f.value = f := rfl

theorem assign_ne_errorf (w : World) (fieldName typeName value msg : String) (v : Value) :
    assign w fieldName typeName value v ≠ .fail (.errorf msg) := by
  cases v <;> simp only [assign] <;> (try split) <;> simp

theorem assign_of_parseFails (w : World) (fieldName typeName value : String) (v : Value)
    (h : parseFails w value v = true) :
    assign w fieldName typeName value v = .fail (.parseError fieldName typeName value) := by
  cases v with
  | str s => simp [parseFails] at h
  | other p => simp [parseFails] at h
  | int bits n =>
    simp only [parseFails] at h
    simp only [assign]
    rcases hp : parseInt value bits with ⟨m, e⟩
    rw [hp] at h
    cases e with
    | none => simp at h
    | some e => rfl
  | bool b =>
    simp only [parseFails, Option.isNone_iff_eq_none] at h
    simp only [assign, h]
  | float bits x =>
    simp only [parseFails, Option.isNone_iff_eq_none] at h
    simp only [assign, h]

theorem processFields_fail_split (w : World) (configPath : String) :
    ∀ (fields : List Field) (e : Error),
      (processFields w configPath fields).err = some e →
      ∃ pre f post, fields = pre ++ f :: post ∧ f.canSet = true ∧
        (processField w configPath f).1 = .fail e ∧
        (∀ g ∈ pre, g.canSet = true → ∃ v, (processField w configPath g).1 = .next v) ∧
        (processFields w configPath fields).fields =
          pre.map (stepField w configPath) ++ f :: post := by
  intro fields
  induction fields with
  | nil => intro e h; simp [processFields] at h
  | cons f rest ih =>
    intro e h
    by_cases hset : f.canSet = true
    · rcases hstep : processField w configPath f with ⟨step, tr⟩
      cases step with
      | fail e2 =>
        rw [processFields_cons_fail w configPath f rest e2 tr hset hstep] at h ⊢
        simp only [Option.some.injEq] at h
        subst h
        exact ⟨[], f, rest, rfl, hset, by rw [hstep], by simp, rfl⟩
      | next v =>
        rw [processFields_cons_next w configPath f rest v tr hset hstep] at h ⊢
        obtain ⟨pre, g, post, hsplit, hg, hgf, hall, hfields⟩ := ih e h
        refine ⟨f :: pre, g, post, by rw [hsplit]; rfl, hg, hgf, ?_, ?_⟩
        · intro x hx hxset
          rcases List.mem_cons.mp hx with rfl | hx
          · exact ⟨v, by rw [hstep]⟩
          · exact hall x hx hxset
        · simp only [List.map_cons, List.cons_append, hfields]
          simp [stepField, hset, hstep]
    · rw [processFields_cons_skip w configPath f rest hset] at h ⊢
      obtain ⟨pre, g, post, hsplit, hg, hgf, hall, hfields⟩ := ih e h
      refine ⟨f :: pre, g, post, by rw [hsplit]; rfl, hg, hgf, ?_, ?_⟩
      · intro x hx hxset
        rcases List.mem_cons.mp hx with rfl | hx
        · exact absurd hxset hset
        · exact hall x hx hxset
      · simp only [List.map_cons, List.cons_append, hfields]
        simp [stepField, hset]

theorem asciiUpper_shape (d : Char) (hd : d ≠ '-') :
    asciiUpper d ≠ '-' ∧ ¬ (97 ≤ (asciiUpper d).toNat ∧ (asciiUpper d).toNat ≤ 122) := by
  unfold asciiUpper
  split
  · rename_i h
    obtain ⟨n, hn⟩ : ∃ n, d.toNat = n := ⟨_, rfl⟩
    rw [hn] at h ⊢
    obtain ⟨h1, h2⟩ := h
    interval_cases n <;> decide
  · rename_i h
    exact ⟨hd, h⟩

/-! ## Precedence of the sources -/

/-- C1: for a settable field that `Process` reaches and whose environment
variable is not empty, the resolved value is the environment value: the only
read is that of the variable (no file is read, so no file-read error can come
from the field), the outcome is the same for every file system and every
declared default, and a string field ends equal to the environment value. -/
theorem env_value_wins (w : World) (configPath : String) (pre post : List Field)
    (f : Field) (hpre : (processFields w configPath pre).err = none)
    (hset : f.canSet = true) (henv : w.getenv (envKey w f) ≠ "") :
    resolve w configPath f = (.value (w.getenv (envKey w f)), [.getenv (envKey w f)]) ∧
    (∀ msg, (processField w configPath f).1 ≠ .fail (.errorf msg)) ∧
    (∀ (readFile2 : String → Except String String) (dflt2 : String),
      processField ⟨w.getenv, readFile2, w.upperTable, w.parseFloat⟩ configPath
          ⟨f.name, f.canSet, f.alt, dflt2, f.req, f.typeName, f.value⟩ =
        processField w configPath f) ∧
    (∀ s, f.value = .str s →
      (Process w configPath (.structPtr (pre ++ f :: post))).fieldAt pre.length =
          some (f.withValue (.str (w.getenv (envKey w f)))) ∧
        (Process w configPath (.structPtr (pre ++ f :: post))).result =
          .returned (processFields w configPath post).err) := by
  have hres := resolve_env w configPath f henv
  refine ⟨hres, ?_, ?_, ?_⟩
  · intro msg
    simp only [processField, hres]
    cases f.value <;> simp only [assign] <;> (try split) <;> simp
  · intro readFile2 dflt2
    have henv2 : (World.mk w.getenv readFile2 w.upperTable w.parseFloat).getenv
        (envKey ⟨w.getenv, readFile2, w.upperTable, w.parseFloat⟩
          ⟨f.name, f.canSet, f.alt, dflt2, f.req, f.typeName, f.value⟩) ≠ "" := henv
    have hres2 := resolve_env ⟨w.getenv, readFile2, w.upperTable, w.parseFloat⟩ configPath
      ⟨f.name, f.canSet, f.alt, dflt2, f.req, f.typeName, f.value⟩ henv2
    simp only [processField, hres, hres2]
    cases f.value <;> rfl
  · intro s hs
    have hstep : processField w configPath f =
        (.next (.str (w.getenv (envKey w f))), [.getenv (envKey w f)]) := by
      simp only [processField, hres, hs, assign]
    rw [process_reach_next w configPath pre post f _ _ hpre hset hstep]
    exact ⟨fieldAt_mid w configPath pre _ _ _ _, rfl⟩

theorem env_value_wins_witness :
    (Process (sampleWorld [("PORT", "8080"), ("NAME", "alice")] [("/etc/app/Name", "bob")])
        "/etc/app" (.structPtr ([portField] ++ nameField :: [timeoutField]))).fieldAt 1 =
      some (nameField.withValue (.str "alice")) :=
  ((env_value_wins (sampleWorld [("PORT", "8080"), ("NAME", "alice")] [("/etc/app/Name", "bob")])
    "/etc/app" [portField] [timeoutField] nameField (by decide) (by decide) (by decide)).2.2.2
      "old" rfl).1

/-- C2: for a settable field that `Process` reaches, whose environment variable
is empty and whose fallback file cannot be read, `Process` returns an error
whose message is "error reading config file PATH: CAUSE", which contains the
path of the file and the text of the read error; this holds for every default
and every required tag, and the field and the fields after it are left as they
were. -/
theorem read_failure_is_fatal (w : World) (configPath : String) (pre post : List Field)
    (f : Field) (cause : String) (hpre : (processFields w configPath pre).err = none)
    (hset : f.canSet = true) (henv : w.getenv (envKey w f) = "")
    (hread : w.readFile (configFile configPath f) = .error cause) :
    (Process w configPath (.structPtr (pre ++ f :: post))).result =
      .returned (some (.errorf
        ("error reading config file " ++ configFile configPath f ++ ": " ++ cause))) ∧
    (configFile configPath f).data <:+:
      (Error.errorf
        ("error reading config file " ++ configFile configPath f ++ ": " ++ cause)).message.data ∧
    cause.data <:+:
      (Error.errorf
        ("error reading config file " ++ configFile configPath f ++ ": " ++ cause)).message.data ∧
    (Process w configPath (.structPtr (pre ++ f :: post))).spec =
      .structPtr ((processFields w configPath pre).fields ++ f :: post) := by
  have hres := resolve_read_error w configPath f cause henv hread
  have hstep : processField w configPath f =
      (.fail (.errorf ("error reading config file " ++ configFile configPath f ++ ": " ++ cause)),
        [.getenv (envKey w f), .readFile (configFile configPath f)]) := by
    simp only [processField, hres]
  rw [process_reach_fail w configPath pre post f _ _ hpre hset hstep]
  refine ⟨rfl, ?_, ?_, rfl⟩
  · simp only [Error.message, String.data_append]
    exact ⟨"error reading config file ".data, ": ".data ++ cause.data, by simp⟩
  · simp only [Error.message, String.data_append]
    exact ⟨"error reading config file ".data ++ (configFile configPath f).data ++ ": ".data, [],
      by simp⟩

theorem read_failure_is_fatal_witness :
    (Process (sampleWorld [] []) "/etc/app" (.structPtr ([] ++ nameField :: []))).result =
      .returned (some (.errorf ("error reading config file " ++ configFile "/etc/app" nameField ++
        ": " ++ "open /etc/app/Name: no such file or directory"))) :=
  (read_failure_is_fatal (sampleWorld [] []) "/etc/app" [] [] nameField
    "open /etc/app/Name: no such file or directory" (by decide) (by decide) (by decide)
    (by rfl)).1

/-- C3, as stated, fails: the boolean field `Debug` with the default "false",
no environment variable and no file makes `Process` return a file-read error
and leaves `Debug` at true; and with an empty file the default "yes" of the
boolean field `Verbose` is used but does not parse, so `Process` fails. -/
theorem default_needs_readable_file :
    ((Process (sampleWorld [] []) "/etc/app" (.structPtr [debugField])).result =
        .returned (some (.errorf
          "error reading config file /etc/app/Debug: open /etc/app/Debug: no such file or directory")) ∧
      (Process (sampleWorld [] []) "/etc/app" (.structPtr [debugField])).fieldAt 0 =
        some debugField ∧ debugField.value = .bool true) ∧
    (Process (sampleWorld [] [("/etc/app/Verbose", "")]) "/etc/app"
        (.structPtr [verboseField])).result =
      .returned (some (.parseError "Verbose" "bool" "yes")) := by
  decide

/-- C3, amended: for a settable field that `Process` reaches, whose environment
variable is empty, whose fallback file is read and is empty, and that declares
a default, the resolved value is the default: the field raises neither a
file-read nor a required-missing error, and when the default converts to the
type of the field the field ends holding the converted default and the loop
goes on. -/
theorem default_used_after_empty_file (w : World) (configPath : String)
    (pre post : List Field) (f : Field)
    (hpre : (processFields w configPath pre).err = none) (hset : f.canSet = true)
    (henv : w.getenv (envKey w f) = "")
    (hread : w.readFile (configFile configPath f) = .ok "") (hdef : f.dflt ≠ "") :
    (resolve w configPath f).1 = .value f.dflt ∧
    (∀ msg, (processField w configPath f).1 ≠ .fail (.errorf msg)) ∧
    (∀ v, assign w (lookupName f) f.typeName f.dflt f.value = .next v →
      (Process w configPath (.structPtr (pre ++ f :: post))).fieldAt pre.length =
          some (f.withValue v) ∧
        (Process w configPath (.structPtr (pre ++ f :: post))).result =
          .returned (processFields w configPath post).err) := by
  have hres : resolve w configPath f =
      (.value f.dflt, [.getenv (envKey w f), .readFile (configFile configPath f)]) := by
    rw [resolve_read_ok w configPath f "" henv hread]
    simp [applyDefault, hdef]
  refine ⟨by rw [hres], ?_, ?_⟩
  · intro msg
    simp only [processField, hres]
    exact assign_ne_errorf w _ _ _ _ _
  · intro v hv
    have hstep : processField w configPath f =
        (.next v, [.getenv (envKey w f), .readFile (configFile configPath f)]) := by
      simp only [processField, hres, hv]
    rw [process_reach_next w configPath pre post f _ _ hpre hset hstep]
    exact ⟨fieldAt_mid w configPath pre _ _ _ _, rfl⟩

theorem default_used_after_empty_file_witness :
    (Process (sampleWorld [] [("/etc/app/Debug", "")]) "/etc/app"
        (.structPtr ([] ++ debugField :: []))).fieldAt 0 =
        some (debugField.withValue (.bool false)) ∧
      (Process (sampleWorld [] [("/etc/app/Debug", "")]) "/etc/app"
        (.structPtr ([] ++ debugField :: []))).result = .returned none :=
  (default_used_after_empty_file (sampleWorld [] [("/etc/app/Debug", "")]) "/etc/app" [] []
    debugField (by decide) (by decide) (by decide) (by rfl) (by decide)).2.2
      (.bool false) (by decide)

/-! ## Fields with no value -/

/-- C4, as stated, fails: the required field `Name` with no environment
variable, no file and no default makes `Process` return the file-read error,
not the required-missing error. -/
theorem required_without_file_is_read_error :
    (Process (sampleWorld [] []) "/etc/app" (.structPtr [nameField])).result =
        .returned (some (.errorf
          "error reading config file /etc/app/Name: open /etc/app/Name: no such file or directory")) ∧
      (Process (sampleWorld [] []) "/etc/app" (.structPtr [nameField])).result ≠
        .returned (some (.errorf "required key NAME missing value")) := by
  decide

/-- C4, amended: for a settable field that `Process` reaches, tagged
`required:"true"`, whose environment variable is empty, whose fallback file is
read and is empty, and that declares no default, `Process` returns the error
"required key KEY missing value"; the field and every field after it keep
their values and no read is made for a later field. -/
theorem required_missing (w : World) (configPath : String) (pre post : List Field)
    (f : Field) (hpre : (processFields w configPath pre).err = none)
    (hset : f.canSet = true) (henv : w.getenv (envKey w f) = "")
    (hread : w.readFile (configFile configPath f) = .ok "") (hdef : f.dflt = "")
    (hreq : f.req = "true") :
    Process w configPath (.structPtr (pre ++ f :: post)) =
      ⟨.structPtr ((processFields w configPath pre).fields ++ f :: post),
        .returned (some (.errorf ("required key " ++ envKey w f ++ " missing value"))),
        (processFields w configPath pre).trace ++
          [.getenv (envKey w f), .readFile (configFile configPath f)]⟩ := by
  have hres : resolve w configPath f =
      (.fail (.errorf ("required key " ++ envKey w f ++ " missing value")),
        [.getenv (envKey w f), .readFile (configFile configPath f)]) := by
    rw [resolve_read_ok w configPath f "" henv hread]
    simp [applyDefault, hdef, hreq]
  have hstep : processField w configPath f =
      (.fail (.errorf ("required key " ++ envKey w f ++ " missing value")),
        [.getenv (envKey w f), .readFile (configFile configPath f)]) := by
    simp only [processField, hres]
  exact process_reach_fail w configPath pre post f _ _ hpre hset hstep

theorem required_missing_witness :
    Process (sampleWorld [("PORT", "8080")] [("/etc/app/Name", "")]) "/etc/app"
        (.structPtr ([portField] ++ nameField :: [timeoutField])) =
      ⟨.structPtr ((processFields (sampleWorld [("PORT", "8080")] [("/etc/app/Name", "")])
          "/etc/app" [portField]).fields ++ nameField :: [timeoutField]),
        .returned (some (.errorf ("required key " ++
          envKey (sampleWorld [("PORT", "8080")] [("/etc/app/Name", "")]) nameField ++
          " missing value"))),
        (processFields (sampleWorld [("PORT", "8080")] [("/etc/app/Name", "")])
          "/etc/app" [portField]).trace ++
          [.getenv (envKey (sampleWorld [("PORT", "8080")] [("/etc/app/Name", "")]) nameField),
            .readFile (configFile "/etc/app" nameField)]⟩ :=
  required_missing (sampleWorld [("PORT", "8080")] [("/etc/app/Name", "")]) "/etc/app"
    [portField] [timeoutField] nameField (by decide) (by decide) (by decide) (by rfl)
    (by decide) (by decide)

/-- C5, as stated, fails: the field `Timeout`, not required, with no
environment variable, no file and no default makes `Process` return a
file-read error instead of going on. -/
theorem optional_without_file_is_read_error :
    (Process (sampleWorld [] []) "/etc/app" (.structPtr [timeoutField])).result =
      .returned (some (.errorf
        "error reading config file /etc/app/Timeout: open /etc/app/Timeout: no such file or directory")) := by
  decide

/-- C5, amended: for a settable field that `Process` reaches, not tagged
`required:"true"`, whose environment variable is empty, whose fallback file is
read and is empty, and that declares no default, `Process` leaves the field as
it was, raises no error for it and goes on with the next field. -/
theorem optional_missing_is_skipped (w : World) (configPath : String)
    (pre post : List Field) (f : Field)
    (hpre : (processFields w configPath pre).err = none) (hset : f.canSet = true)
    (henv : w.getenv (envKey w f) = "")
    (hread : w.readFile (configFile configPath f) = .ok "") (hdef : f.dflt = "")
    (hreq : f.req ≠ "true") :
    Process w configPath (.structPtr (pre ++ f :: post)) =
      ⟨.structPtr ((processFields w configPath pre).fields ++
          f :: (processFields w configPath post).fields),
        .returned (processFields w configPath post).err,
        (processFields w configPath pre).trace ++
          ([.getenv (envKey w f), .readFile (configFile configPath f)] ++
            (processFields w configPath post).trace)⟩ := by
  have hres : resolve w configPath f =
      (.skip, [.getenv (envKey w f), .readFile (configFile configPath f)]) := by
    rw [resolve_read_ok w configPath f "" henv hread]
    simp [applyDefault, hdef, hreq]
  have hstep : processField w configPath f =
      (.next f.value, [.getenv (envKey w f), .readFile (configFile configPath f)]) := by
    simp only [processField, hres]
  have h := process_reach_next w configPath pre post f _ _ hpre hset hstep
  rw [withValue_self] at h
  exact h

theorem optional_missing_is_skipped_witness :
    (Process (sampleWorld [("NAME", "alice")] [("/etc/app/Timeout", "")]) "/etc/app"
        (.structPtr ([] ++ timeoutField :: [nameField]))).spec =
      .structPtr [timeoutField, nameField.withValue (.str "alice")] ∧
    (Process (sampleWorld [("NAME", "alice")] [("/etc/app/Timeout", "")]) "/etc/app"
        (.structPtr ([] ++ timeoutField :: [nameField]))).result = .returned none := by
  rw [optional_missing_is_skipped (sampleWorld [("NAME", "alice")] [("/etc/app/Timeout", "")])
    "/etc/app" [] [nameField] timeoutField (by decide) (by decide) (by decide) (by rfl)
    (by decide) (by decide)]
  decide

/-! ## Conversion errors -/

/-- C6, as stated, fails: for the integer field `Timeout` with the alternate
name "timeout-secs" and TIMEOUT_SECS=notanumber, the ParseError carries the
alternate name as FieldName, not the name of the field. -/
theorem parse_error_names_alternate :
    (Process (sampleWorld [("TIMEOUT_SECS", "notanumber")] []) "/etc/app"
        (.structPtr [altTimeoutField])).result =
      .returned (some (.parseError "timeout-secs" "int" "notanumber")) ∧
    altTimeoutField.name = "Timeout" := by
  decide

/-- C6, amended: for a settable integer, boolean or floating-point field that
`Process` reaches and whose resolved value does not convert to the type of the
field, `Process` returns a ParseError whose FieldName is the lookup name (the
alternate name when one is declared, the name of the field otherwise), whose
TypeName is the type of the field and whose Value is the resolved string; the
field and the fields after it are not modified. -/
theorem parse_error_contents (w : World) (configPath : String) (pre post : List Field)
    (f : Field) (v : String) (hpre : (processFields w configPath pre).err = none)
    (hset : f.canSet = true) (hval : (resolve w configPath f).1 = .value v)
    (hfail : parseFails w v f.value = true) :
    (Process w configPath (.structPtr (pre ++ f :: post))).result =
      .returned (some (.parseError (lookupName f) f.typeName v)) ∧
    (Process w configPath (.structPtr (pre ++ f :: post))).spec =
      .structPtr ((processFields w configPath pre).fields ++ f :: post) ∧
    (f.alt = "" → lookupName f = f.name) ∧ (f.alt ≠ "" → lookupName f = f.alt) := by
  have hstep : processField w configPath f =
      (.fail (.parseError (lookupName f) f.typeName v), (resolve w configPath f).2) := by
    rcases hres : resolve w configPath f with ⟨r, tr⟩
    rw [hres] at hval
    simp only at hval
    subst hval
    simp only [processField, hres, assign_of_parseFails w _ _ _ _ hfail]
  rw [process_reach_fail w configPath pre post f _ _ hpre hset hstep]
  refine ⟨rfl, rfl, ?_, ?_⟩
  · intro h; simp [lookupName, h]
  · intro h; simp [lookupName, h]

theorem parse_error_contents_witness :
    (Process (sampleWorld [("TIMEOUT", "notanumber")] []) "/etc/app"
        (.structPtr ([] ++ timeoutField :: [nameField]))).result =
      .returned (some (.parseError "Timeout" "int" "notanumber")) ∧
    (Process (sampleWorld [("TIMEOUT", "notanumber")] []) "/etc/app"
        (.structPtr ([] ++ timeoutField :: [nameField]))).spec =
      .structPtr [timeoutField, nameField] :=
  ⟨(parse_error_contents (sampleWorld [("TIMEOUT", "notanumber")] []) "/etc/app" [] [nameField]
      timeoutField "notanumber" (by decide) (by decide) (by decide) (by decide)).1,
    (parse_error_contents (sampleWorld [("TIMEOUT", "notanumber")] []) "/etc/app" [] [nameField]
      timeoutField "notanumber" (by decide) (by decide) (by decide) (by decide)).2.1⟩

/-! ## The fallback file -/

/-- C7, as stated, fails: for the string field `Title` with the default
"untitled", no environment variable and an existing, empty file, the resolved
value is the default, not the contents of the file, and the field ends
holding "untitled". -/
theorem empty_file_is_not_the_value :
    (sampleWorld [] [("/etc/app/Title", "")]).readFile (configFile "/etc/app" titleField) =
      .ok "" ∧
    (resolve (sampleWorld [] [("/etc/app/Title", "")]) "/etc/app" titleField).1 =
      .value "untitled" ∧
    (Process (sampleWorld [] [("/etc/app/Title", "")]) "/etc/app"
        (.structPtr [titleField])).fieldAt 0 =
      some (titleField.withValue (.str "untitled")) := by
  refine ⟨rfl, ?_, ?_⟩ <;> decide

/-- C7, amended: for a settable field that `Process` reaches, whose environment
variable is empty and whose fallback file is read and is not empty, the
contents of the file, as they are (nothing is trimmed, a trailing newline
stays), are the resolved value; a string field ends equal to them. -/
theorem file_contents_verbatim (w : World) (configPath : String) (pre post : List Field)
    (f : Field) (data : String) (hpre : (processFields w configPath pre).err = none)
    (hset : f.canSet = true) (henv : w.getenv (envKey w f) = "")
    (hread : w.readFile (configFile configPath f) = .ok data) (hdata : data ≠ "") :
    resolve w configPath f =
      (.value data, [.getenv (envKey w f), .readFile (configFile configPath f)]) ∧
    (∀ s, f.value = .str s →
      (Process w configPath (.structPtr (pre ++ f :: post))).fieldAt pre.length =
          some (f.withValue (.str data)) ∧
        (Process w configPath (.structPtr (pre ++ f :: post))).result =
          .returned (processFields w configPath post).err) := by
  have hres : resolve w configPath f =
      (.value data, [.getenv (envKey w f), .readFile (configFile configPath f)]) := by
    rw [resolve_read_ok w configPath f data henv hread, applyDefault_of_ne f _ data hdata]
  refine ⟨hres, ?_⟩
  intro s hs
  have hstep : processField w configPath f =
      (.next (.str data), [.getenv (envKey w f), .readFile (configFile configPath f)]) := by
    simp only [processField, hres, hs, assign]
  rw [process_reach_next w configPath pre post f _ _ hpre hset hstep]
  exact ⟨fieldAt_mid w configPath pre _ _ _ _, rfl⟩

theorem file_contents_verbatim_witness :
    (Process (sampleWorld [("PORT", "8080")] [("/etc/app/Name", "alice\n")]) "/etc/app"
        (.structPtr ([portField] ++ nameField :: []))).fieldAt 1 =
      some (nameField.withValue (.str "alice\n")) :=
  ((file_contents_verbatim (sampleWorld [("PORT", "8080")] [("/etc/app/Name", "alice\n")])
    "/etc/app" [portField] [] nameField "alice\n" (by decide) (by decide) (by decide) (by rfl)
    (by decide)).2 "old" rfl).1

/-! ## The first failure ends the call -/

/-- C8: when `Process` on a struct returns an error `e`, the fields split as
`pre ++ f :: post` where `f` is the first field whose processing fails: `f` is
settable and fails with `e`, every settable field of `pre` is processed
without an error, the fields of `pre` end holding the values given to them,
and `f` and the fields of `post` are as they were. -/
theorem first_failure_wins (w : World) (configPath : String) (fields : List Field)
    (e : Error)
    (hfail : (Process w configPath (.structPtr fields)).result = .returned (some e)) :
    ∃ pre f post, fields = pre ++ f :: post ∧ f.canSet = true ∧
      (processField w configPath f).1 = .fail e ∧
      (∀ g ∈ pre, g.canSet = true → ∃ v, (processField w configPath g).1 = .next v) ∧
      (Process w configPath (.structPtr fields)).spec =
        .structPtr (pre.map (stepField w configPath) ++ f :: post) := by
  have herr : (processFields w configPath fields).err = some e := by
    simpa [Process] using hfail
  obtain ⟨pre, f, post, h1, h2, h3, h4, h5⟩ :=
    processFields_fail_split w configPath fields e herr
  exact ⟨pre, f, post, h1, h2, h3, h4, by simp [Process, h5]⟩

theorem first_failure_wins_witness :
    ∃ pre f post, [portField, timeoutField, nameField] = pre ++ f :: post ∧
      f.canSet = true ∧
      (processField (sampleWorld [("PORT", "8080"), ("TIMEOUT", "soon")] []) "/etc/app" f).1 =
        .fail (.parseError "Timeout" "int" "soon") ∧
      (∀ g ∈ pre, g.canSet = true →
        ∃ v, (processField (sampleWorld [("PORT", "8080"), ("TIMEOUT", "soon")] [])
          "/etc/app" g).1 = .next v) ∧
      (Process (sampleWorld [("PORT", "8080"), ("TIMEOUT", "soon")] []) "/etc/app"
          (.structPtr [portField, timeoutField, nameField])).spec =
        .structPtr (pre.map (stepField (sampleWorld [("PORT", "8080"), ("TIMEOUT", "soon")] [])
          "/etc/app") ++ f :: post) :=
  first_failure_wins (sampleWorld [("PORT", "8080"), ("TIMEOUT", "soon")] []) "/etc/app"
    [portField, timeoutField, nameField] (.parseError "Timeout" "int" "soon") (by decide)

/-! ## The names of the lookups -/

/-- C9, as stated, fails: for the field `Host` with the alternate name
"db-host" and no environment variable, `Process` reads the file
/etc/app/db-host, named after the alternate name; the file /etc/app/Host is
there and is not read. -/
theorem fallback_file_uses_alternate :
    Process (sampleWorld [] [("/etc/app/Host", "h1")]) "/etc/app" (.structPtr [hostField]) =
      ⟨.structPtr [hostField],
        .returned (some (.errorf
          "error reading config file /etc/app/db-host: open /etc/app/db-host: no such file or directory")),
        [.getenv "DB_HOST", .readFile "/etc/app/db-host"]⟩ ∧
    hostField.name = "Host" := by
  decide

/-- C9, amended: for a settable field that `Process` reaches and whose
environment variable is empty, the one file read for the field is
`path.Join(configPath, n)` where `n` is the lookup name as written (neither
upper-cased nor with `-` replaced): the alternate name when one is declared,
the name of the field otherwise. -/
theorem fallback_file_path (w : World) (configPath : String) (pre post : List Field)
    (f : Field) (hpre : (processFields w configPath pre).err = none)
    (hset : f.canSet = true) (henv : w.getenv (envKey w f) = "") :
    (processField w configPath f).2 =
      [.getenv (envKey w f),
        .readFile (pathJoin configPath (if f.alt ≠ "" then f.alt else f.name))] ∧
    ∃ rest, (Process w configPath (.structPtr (pre ++ f :: post))).trace =
      (processFields w configPath pre).trace ++
        .getenv (envKey w f) ::
          .readFile (pathJoin configPath (if f.alt ≠ "" then f.alt else f.name)) :: rest := by
  have htr : (processField w configPath f).2 =
      [.getenv (envKey w f),
        .readFile (pathJoin configPath (if f.alt ≠ "" then f.alt else f.name))] := by
    have hres : (resolve w configPath f).2 =
        [.getenv (envKey w f), .readFile (configFile configPath f)] := by
      simp only [resolve, henv, if_true]
      split <;> rfl
    have hproc : (processField w configPath f).2 = (resolve w configPath f).2 := by
      simp only [processField]
      split <;> simp_all
    rw [hproc, hres]
    rfl
  refine ⟨htr, ?_⟩
  rcases hstep : processField w configPath f with ⟨step, tr⟩
  rw [hstep] at htr
  simp only at htr
  subst htr
  cases step with
  | fail e =>
    rw [process_reach_fail w configPath pre post f _ _ hpre hset hstep]
    exact ⟨[], rfl⟩
  | next v =>
    rw [process_reach_next w configPath pre post f _ _ hpre hset hstep]
    exact ⟨(processFields w configPath post).trace, rfl⟩

theorem fallback_file_path_witness :
    (processField (sampleWorld [("PORT", "8080")] [("/etc/app/Name", "alice")]) "/etc/app"
        nameField).2 =
      [.getenv (envKey (sampleWorld [("PORT", "8080")] [("/etc/app/Name", "alice")]) nameField),
        .readFile (pathJoin "/etc/app"
          (if nameField.alt ≠ "" then nameField.alt else nameField.name))] :=
  (fallback_file_path (sampleWorld [("PORT", "8080")] [("/etc/app/Name", "alice")]) "/etc/app"
    [portField] [] nameField (by decide) (by decide) (by decide)).1

/-- C10: the environment key of a field is the alternate name when the
`etcenvconfig` tag is not empty and the name of the field otherwise, with every
`-` replaced by `_` and then upper-cased; it is the first thing `Process` reads
for a settable field; and, the Unicode table sending no non-ASCII rune to `-`
or to a letter in a..z, the key holds no `-` and no letter in a..z. -/
theorem env_key_shape (w : World) (configPath : String) (f : Field)
    (htab : ∀ c : Char, 127 < c.toNat →
      w.upperTable c ≠ '-' ∧
        ¬ (97 ≤ (w.upperTable c).toNat ∧ (w.upperTable c).toNat ≤ 122)) :
    envKey w f =
      stringsToUpper w.upperTable
        (stringsReplaceAll '-' '_' (if f.alt ≠ "" then f.alt else f.name)) ∧
    (processField w configPath f).2.head? = some (.getenv (envKey w f)) ∧
    ∀ c ∈ (envKey w f).data, c ≠ '-' ∧ ¬ (97 ≤ c.toNat ∧ c.toNat ≤ 122) := by
  refine ⟨rfl, ?_, ?_⟩
  · have hproc : (processField w configPath f).2 = (resolve w configPath f).2 := by
      simp only [processField]
      split <;> simp_all
    rw [hproc]
    simp only [resolve]
    split
    · split <;> rfl
    · rfl
  · intro c hc
    simp only [envKey, stringsToUpper, stringsReplaceAll, List.map_map, List.mem_map,
      Function.comp] at hc
    obtain ⟨c0, -, rfl⟩ := hc
    have hd : (if c0 = '-' then '_' else c0) ≠ '-' := by
      split
      · decide
      · assumption
    generalize (if c0 = '-' then '_' else c0) = d at hd
    unfold toUpperRune
    split
    · exact asciiUpper_shape d hd
    · rename_i h
      exact htab d (by omega)

theorem env_key_shape_witness :
    envKey (sampleWorld [] []) hostField = "DB_HOST" ∧
    ((envKey (sampleWorld [] []) hostField).data.all fun c =>
      decide (c ≠ '-' ∧ ¬ (97 ≤ c.toNat ∧ c.toNat ≤ 122))) = true :=
  ⟨by decide, List.all_eq_true.mpr fun c hc => decide_eq_true
    ((env_key_shape (sampleWorld [] []) "/etc/app" hostField (by
      intro c hc
      refine ⟨?_, ?_⟩
      · intro h
        have h2 : c.toNat = 45 := by
          have h3 : c = '-' := h
          rw [h3]; rfl
        omega
      · have h2 : ((sampleWorld [] []).upperTable c).toNat = c.toNat := rfl
        omega)).2.2 c hc)⟩

/-! ## Targets that are not structs -/

/-- C11: a pointer whose element is not a struct makes `Process` return
`ErrInvalidSpecification` with the target untouched and no read made; a value
that is not a pointer makes `Process` panic inside `reflect.Value.Elem`
(line 37) before the check of line 38, so no error is returned for it. -/
theorem non_pointer_target_panics (w : World) (configPath : String) (payload : Nat) :
    Process w configPath (.otherPtr payload) =
      ⟨.otherPtr payload, .returned (some .invalidSpecification), []⟩ ∧
    Process w configPath (.nonPtr payload) = ⟨.nonPtr payload, .panicked, []⟩ ∧
    (Process w configPath (.nonPtr payload)).result ≠
      .returned (some .invalidSpecification) := by
  refine ⟨rfl, rfl, ?_⟩
  simp [Process]

/-! ## Fields of other kinds -/

/-- C13: for a settable field that `Process` reaches, whose kind is none of
string, signed integer, boolean or float, and for which a non-empty value is
resolved, the field is left as it was, no error is raised for it, and the loop
goes on with the next field. -/
theorem other_kind_untouched (w : World) (configPath : String) (pre post : List Field)
    (f : Field) (payload : Nat) (v : String)
    (hpre : (processFields w configPath pre).err = none) (hset : f.canSet = true)
    (hkind : f.value = .other payload) (hval : (resolve w configPath f).1 = .value v) :
    Process w configPath (.structPtr (pre ++ f :: post)) =
      ⟨.structPtr ((processFields w configPath pre).fields ++
          f :: (processFields w configPath post).fields),
        .returned (processFields w configPath post).err,
        (processFields w configPath pre).trace ++
          ((resolve w configPath f).2 ++ (processFields w configPath post).trace)⟩ := by
  have hstep : processField w configPath f = (.next f.value, (resolve w configPath f).2) := by
    rcases hres : resolve w configPath f with ⟨r, tr⟩
    rw [hres] at hval
    simp only at hval
    subst hval
    simp only [processField, hres, hkind, assign]
  have h := process_reach_next w configPath pre post f _ _ hpre hset hstep
  rw [withValue_self] at h
  exact h

theorem other_kind_untouched_witness :
    Process (sampleWorld [("TAGS", "a,b"), ("NAME", "alice")] []) "/etc/app"
        (.structPtr ([] ++ tagsField :: [nameField])) =
      ⟨.structPtr [tagsField, nameField.withValue (.str "alice")], .returned none,
        [.getenv "TAGS", .getenv "NAME"]⟩ := by
  rw [other_kind_untouched (sampleWorld [("TAGS", "a,b"), ("NAME", "alice")] []) "/etc/app"
    [] [nameField] tagsField 7 "a,b" (by decide) (by decide) (by decide) (by decide)]
  decide

/-! ## The launcher -/

/-- C14: with `DefaultSSLChecker` as the package sets it, `RunHTTPSConditionally`
starts the plaintext server exactly when SSL_ENABLED is "0" or "false" and the
TLS server with the given certificate and key for every other value, the empty
(or unset) one included; and `SSLEnabled` is false exactly when SSL_ENABLED is
"0" or "false". -/
theorem tls_unless_disabled (getenv : String → String) (addr certFile keyFile : String)
    (handler : Nat) :
    ((RunHTTPSConditionally DefaultSSLChecker getenv addr certFile keyFile handler).served =
        .listenAndServe addr handler ↔
      (getenv "SSL_ENABLED" = "0" ∨ getenv "SSL_ENABLED" = "false")) ∧
    ((RunHTTPSConditionally DefaultSSLChecker getenv addr certFile keyFile handler).served =
        .listenAndServeTLS addr certFile keyFile handler ↔
      ¬ (getenv "SSL_ENABLED" = "0" ∨ getenv "SSL_ENABLED" = "false")) ∧
    (getenv "SSL_ENABLED" = "" →
      (RunHTTPSConditionally DefaultSSLChecker getenv addr certFile keyFile handler).served =
        .listenAndServeTLS addr certFile keyFile handler) ∧
    (SSLEnabled getenv = false ↔
      (getenv "SSL_ENABLED" = "0" ∨ getenv "SSL_ENABLED" = "false")) := by
  have hen : SSLEnabled getenv = false ↔
      (getenv "SSL_ENABLED" = "0" ∨ getenv "SSL_ENABLED" = "false") := by
    simp only [SSLEnabled, bne, Bool.and_eq_false_imp, Bool.not_eq_true', beq_eq_false_iff_ne,
      ne_eq, Bool.not_eq_false', beq_iff_eq]
    constructor
    · intro h
      by_cases h0 : getenv "SSL_ENABLED" = "0"
      · exact Or.inl h0
      · exact Or.inr (h h0)
    · intro h h0
      rcases h with h | h
      · exact absurd h h0
      · exact h
  refine ⟨?_, ?_, ?_, hen⟩
  · rw [← hen]
    cases hb : SSLEnabled getenv <;> simp [RunHTTPSConditionally, DefaultSSLChecker, hb]
  · rw [← hen]
    cases hb : SSLEnabled getenv <;> simp [RunHTTPSConditionally, DefaultSSLChecker, hb]
  · intro h
    have hb : SSLEnabled getenv = true := by
      simp [SSLEnabled, h]
    simp [RunHTTPSConditionally, DefaultSSLChecker, hb]

/-! ## Running Process twice -/

theorem resolve_withValue (w : World) (configPath : String) (f : Field) (v : Value) :
    resolve w configPath (f.withValue v) = resolve w configPath f := rfl

theorem processField_withValue (w : World) (configPath : String) (f : Field) (v : Value)
    (tr : List Effect) (hstep : processField w configPath f = (.next v, tr)) :
    processField w configPath (f.withValue v) = (.next v, tr) := by
  unfold processField at hstep ⊢
  rw [resolve_withValue]
  rcases hres : resolve w configPath f with ⟨r, tr2⟩
  rw [hres] at hstep
  cases r with
  | fail e => simp at hstep
  | skip =>
    simp only [Prod.mk.injEq, Step.next.injEq] at hstep
    simp only [Field.withValue, hstep.1, hstep.2]
  | value s =>
    simp only [Prod.mk.injEq] at hstep
    obtain ⟨h1, h2⟩ := hstep
    subst h2
    simp only [Field.withValue, Prod.mk.injEq, and_true]
    show assign w (lookupName f) f.typeName s v = .next v
    cases hv : f.value with
    | str s0 =>
      rw [hv] at h1
      simp only [assign, Step.next.injEq] at h1
      subst h1
      rfl
    | other p =>
      rw [hv] at h1
      simp only [assign, Step.next.injEq] at h1
      subst h1
      rfl
    | int bits n =>
      rw [hv] at h1
      simp only [assign] at h1
      rcases hp : parseInt s bits with ⟨m, e⟩
      rw [hp] at h1
      cases e with
      | some e => simp at h1
      | none =>
        simp only [Step.next.injEq] at h1
        subst h1
        simp only [assign, hp]
    | bool b =>
      rw [hv] at h1
      simp only [assign] at h1
      cases hp : parseBool s with
      | none => rw [hp] at h1; simp at h1
      | some b2 =>
        rw [hp] at h1
        simp only [Step.next.injEq] at h1
        subst h1
        simp only [assign, hp]
    | float bits x =>
      rw [hv] at h1
      simp only [assign] at h1
      cases hp : strconvParseFloat w s bits with
      | none => rw [hp] at h1; simp at h1
      | some x2 =>
        rw [hp] at h1
        simp only [Step.next.injEq] at h1
        subst h1
        simp only [assign, hp]

theorem processFields_twice (w : World) (configPath : String) (fields : List Field) :
    processFields w configPath (processFields w configPath fields).fields =
      processFields w configPath fields := by
  induction fields with
  | nil => rfl
  | cons f rest ih =>
    by_cases hset : f.canSet = true
    · rcases hstep : processField w configPath f with ⟨step, tr⟩
      cases step with
      | fail e =>
        rw [processFields_cons_fail w configPath f rest e tr hset hstep]
        exact processFields_cons_fail w configPath f rest e tr hset hstep
      | next v =>
        rw [processFields_cons_next w configPath f rest v tr hset hstep]
        have hset2 : (f.withValue v).canSet = true := hset
        rw [processFields_cons_next w configPath (f.withValue v) _ v tr hset2
          (processField_withValue w configPath f v tr hstep), ih]
        rfl
    · rw [processFields_cons_skip w configPath f rest hset]
      rw [processFields_cons_skip w configPath f _ hset, ih]

/-- C16: for a fixed environment and file system, running `Process` on the
target left by a first run ends the same way (nil, the same error, or the same
panic), makes the same reads and leaves the target as the first run left it. -/
theorem process_idempotent (w : World) (configPath : String) (spec : Spec) :
    Process w configPath (Process w configPath spec).spec = Process w configPath spec := by
  cases spec with
  | nonPtr payload => rfl
  | otherPtr payload => rfl
  | structPtr fields =>
    simp only [Process]
    rw [processFields_twice]

/-! ## Fields that cannot be set -/

theorem processFields_append_fail (w : World) (configPath : String) (pre post : List Field)
    (e : Error) (hpre : (processFields w configPath pre).err = some e) :
    processFields w configPath (pre ++ post) =
      ⟨(processFields w configPath pre).fields ++ post, some e,
        (processFields w configPath pre).trace⟩ := by
  induction pre with
  | nil => simp [processFields] at hpre
  | cons f rest ih =>
    rw [List.cons_append]
    by_cases hset : f.canSet = true
    · rcases hstep : processField w configPath f with ⟨step, tr⟩
      cases step with
      | fail e2 =>
        rw [processFields_cons_fail w configPath f rest e2 tr hset hstep] at hpre ⊢
        rw [processFields_cons_fail w configPath f (rest ++ post) e2 tr hset hstep]
        simp only [Option.some.injEq] at hpre
        subst hpre
        rfl
      | next v =>
        rw [processFields_cons_next w configPath f rest v tr hset hstep] at hpre ⊢
        rw [processFields_cons_next w configPath f (rest ++ post) v tr hset hstep, ih hpre]
        rfl
    · rw [processFields_cons_skip w configPath f rest hset] at hpre ⊢
      rw [processFields_cons_skip w configPath f (rest ++ post) hset, ih hpre]
      rfl

/-- C18: a field that cannot be set is never modified, and the call ends the
same way and makes the same reads as on the target without the field: no
environment variable and no file is read for it and no error comes from it,
whatever its tags. -/
theorem unsettable_field_ignored (w : World) (configPath : String) (pre post : List Field)
    (f : Field) (hset : f.canSet = false) :
    (Process w configPath (.structPtr (pre ++ f :: post))).fieldAt pre.length = some f ∧
    (Process w configPath (.structPtr (pre ++ f :: post))).result =
      (Process w configPath (.structPtr (pre ++ post))).result ∧
    (Process w configPath (.structPtr (pre ++ f :: post))).trace =
      (Process w configPath (.structPtr (pre ++ post))).trace := by
  have hns : ¬ f.canSet = true := by simp [hset]
  cases herr : (processFields w configPath pre).err with
  | some e =>
    simp only [Process, processFields_append_fail w configPath pre _ e herr]
    refine ⟨fieldAt_mid w configPath pre _ _ _ _, ?_, ?_⟩ <;> trivial
  | none =>
    simp only [Process, processFields_append_ok w configPath pre _ herr,
      processFields_cons_skip w configPath f post hns]
    refine ⟨fieldAt_mid w configPath pre _ _ _ _, ?_, ?_⟩ <;> trivial

theorem unsettable_field_ignored_witness :
    (Process (sampleWorld [("PORT", "8080")] []) "/etc/app"
        (.structPtr ([portField] ++ secretField :: []))).fieldAt 1 = some secretField ∧
    (Process (sampleWorld [("PORT", "8080")] []) "/etc/app"
        (.structPtr ([portField] ++ secretField :: []))).result =
      (Process (sampleWorld [("PORT", "8080")] []) "/etc/app"
        (.structPtr ([portField] ++ []))).result :=
  ⟨(unsettable_field_ignored (sampleWorld [("PORT", "8080")] []) "/etc/app" [portField] []
      secretField (by decide)).1,
    (unsettable_field_ignored (sampleWorld [("PORT", "8080")] []) "/etc/app" [portField] []
      secretField (by decide)).2.1⟩

/-! ## Independence of the fields -/

theorem single_field_run (w : World) (configPath : String) (g : Field) :
    (Process w configPath (.structPtr [g])).fieldAt 0 = some (stepField w configPath g) := by
  by_cases hset : g.canSet = true
  · rcases hstep : processField w configPath g with ⟨step, tr⟩
    cases step with
    | fail e =>
      simp [Process, Outcome.fieldAt, stepField, hset, hstep,
        processFields_cons_fail w configPath g [] e tr hset hstep]
    | next v =>
      simp [Process, Outcome.fieldAt, stepField, hset, hstep,
        processFields_cons_next w configPath g [] v tr hset hstep]
  · simp [Process, Outcome.fieldAt, stepField, hset,
      processFields_cons_skip w configPath g [] hset]

theorem reached_field_run (w : World) (configPath : String) (pre post : List Field)
    (f : Field) (hpre : (processFields w configPath pre).err = none)
    (hset : f.canSet = true) :
    (Process w configPath (.structPtr (pre ++ f :: post))).fieldAt pre.length =
      some (stepField w configPath f) := by
  rcases hstep : processField w configPath f with ⟨step, tr⟩
  cases step with
  | fail e =>
    rw [process_reach_fail w configPath pre post f e tr hpre hset hstep]
    simp only [stepField, hset, hstep, if_true]
    exact fieldAt_mid w configPath pre _ _ _ _
  | next v =>
    rw [process_reach_next w configPath pre post f v tr hpre hset hstep]
    simp only [stepField, hset, hstep, if_true]
    exact fieldAt_mid w configPath pre _ _ _ _

theorem reached_field_fail (w : World) (configPath : String) (pre post : List Field)
    (f : Field) (e : Error) (hpre : (processFields w configPath pre).err = none)
    (hset : f.canSet = true)
    (hone : (Process w configPath (.structPtr [f])).result = .returned (some e)) :
    (Process w configPath (.structPtr (pre ++ f :: post))).result = .returned (some e) := by
  rcases hstep : processField w configPath f with ⟨step, tr⟩
  cases step with
  | fail e2 =>
    rw [process_reach_fail w configPath pre post f e2 tr hpre hset hstep]
    simp only [Process, processFields_cons_fail w configPath f [] e2 tr hset hstep] at hone
    exact hone
  | next v =>
    simp only [Process, processFields_cons_next w configPath f [] v tr hset hstep] at hone
    simp [processFields] at hone

theorem processFields_ok_map (w : World) (configPath : String) (fields : List Field)
    (hok : (processFields w configPath fields).err = none) :
    (processFields w configPath fields).fields = fields.map (stepField w configPath) := by
  induction fields with
  | nil => rfl
  | cons f rest ih =>
    by_cases hset : f.canSet = true
    · rcases hstep : processField w configPath f with ⟨step, tr⟩
      cases step with
      | fail e =>
        rw [processFields_cons_fail w configPath f rest e tr hset hstep] at hok
        simp at hok
      | next v =>
        rw [processFields_cons_next w configPath f rest v tr hset hstep] at hok ⊢
        simp only [List.map_cons, ih hok]
        simp [stepField, hset, hstep]
    · rw [processFields_cons_skip w configPath f rest hset] at hok ⊢
      simp only [List.map_cons, ih hok]
      simp [stepField, hset]

/-- C15: a settable field that `Process` reaches ends the same way whatever
the other fields are: in any two targets where it is reached it ends holding
what the run on the field alone leaves, and when the run on the field alone
fails both runs return that error; the resolution looks only at the name and
the tags of the field; and on a run that succeeds every field ends as in the
run on that field alone. -/
theorem fields_independent (w : World) (configPath : String)
    (pre post pre2 post2 : List Field) (f : Field)
    (hpre : (processFields w configPath pre).err = none)
    (hpre2 : (processFields w configPath pre2).err = none) (hset : f.canSet = true) :
    (Process w configPath (.structPtr (pre ++ f :: post))).fieldAt pre.length =
      (Process w configPath (.structPtr [f])).fieldAt 0 ∧
    (Process w configPath (.structPtr (pre2 ++ f :: post2))).fieldAt pre2.length =
      (Process w configPath (.structPtr [f])).fieldAt 0 ∧
    (∀ e, (Process w configPath (.structPtr [f])).result = .returned (some e) →
      (Process w configPath (.structPtr (pre ++ f :: post))).result = .returned (some e) ∧
      (Process w configPath (.structPtr (pre2 ++ f :: post2))).result =
        .returned (some e)) ∧
    (∀ (canSet2 : Bool) (typeName2 : String) (value2 : Value),
      resolve w configPath ⟨f.name, canSet2, f.alt, f.dflt, f.req, typeName2, value2⟩ =
        resolve w configPath f) ∧
    (∀ (fields : List Field) (i : Nat) (g : Field),
      (Process w configPath (.structPtr fields)).result = .returned none →
      fields[i]? = some g →
      (Process w configPath (.structPtr fields)).fieldAt i =
        (Process w configPath (.structPtr [g])).fieldAt 0) := by
  refine ⟨?_, ?_, ?_, ?_, ?_⟩
  · rw [reached_field_run w configPath pre post f hpre hset, single_field_run]
  · rw [reached_field_run w configPath pre2 post2 f hpre2 hset, single_field_run]
  · intro e he
    exact ⟨reached_field_fail w configPath pre post f e hpre hset he,
      reached_field_fail w configPath pre2 post2 f e hpre2 hset he⟩
  · intro canSet2 typeName2 value2
    rfl
  · intro fields i g hok hg
    have herr : (processFields w configPath fields).err = none := by
      simpa [Process] using hok
    rw [single_field_run]
    simp only [Process, Outcome.fieldAt, processFields_ok_map w configPath fields herr,
      List.getElem?_map, hg, Option.map_some']

theorem fields_independent_witness :
    (Process (sampleWorld [("PORT", "8080"), ("NAME", "alice")] []) "/etc/app"
        (.structPtr ([portField] ++ nameField :: [tagsField]))).fieldAt 1 =
      (Process (sampleWorld [("PORT", "8080"), ("NAME", "alice")] []) "/etc/app"
        (.structPtr [nameField])).fieldAt 0 ∧
    (Process (sampleWorld [("PORT", "8080"), ("NAME", "alice")] []) "/etc/app"
        (.structPtr ([] ++ nameField :: [timeoutField]))).fieldAt 0 =
      (Process (sampleWorld [("PORT", "8080"), ("NAME", "alice")] []) "/etc/app"
        (.structPtr [nameField])).fieldAt 0 :=
  ⟨(fields_independent (sampleWorld [("PORT", "8080"), ("NAME", "alice")] []) "/etc/app"
      [portField] [tagsField] [] [timeoutField] nameField (by decide) (by decide)
      (by decide)).1,
    (fields_independent (sampleWorld [("PORT", "8080"), ("NAME", "alice")] []) "/etc/app"
      [portField] [tagsField] [] [timeoutField] nameField (by decide) (by decide)
      (by decide)).2.1⟩

/-! ## A trailing newline in the fallback file -/

theorem parseUintLoop_newline (base cutoff maxVal : Nat) :
    ∀ (cs : List Char) (n : Nat) (u : Bool), '\n' ∈ cs →
      parseUintLoop base true cutoff maxVal cs n u = .error (0, .syntaxErr) ∨
      parseUintLoop base true cutoff maxVal cs n u = .error (maxVal, .rangeErr) := by
  intro cs
  induction cs with
  | nil => intro n u h; simp at h
  | cons c cs ih =>
    intro n u h
    by_cases hc : c = '\n'
    · subst hc
      left
      rw [parseUintLoop]
      have h1 : ¬ ('\n' = '_') := by decide
      have h2 : digitVal '\n' = none := by decide
      simp [h1, h2]
    · have hmem : '\n' ∈ cs := by
        rcases List.mem_cons.mp h with h | h
        · exact absurd h.symm hc
        · exact h
      rw [parseUintLoop]
      split
      · exact ih n true hmem
      · split
        · left; rfl
        · split
          · left; rfl
          · split
            · right; rfl
            · simp only
              split
              · right; rfl
              · exact ih _ u hmem

theorem splitBase_newline (s : List Char) (h : '\n' ∈ s) : '\n' ∈ (splitBase s).2 := by
  unfold splitBase
  split
  · rename_i c0 c1 c2 rest
    split
    · rename_i h0
      have hmem : '\n' ∈ c1 :: c2 :: rest := by
        rcases List.mem_cons.mp h with h | h
        · rw [h0] at h; exact absurd h (by decide)
        · exact h
      have hne : ∀ k, lowerByte c1 = k → k ≠ 42 → '\n' ∈ c2 :: rest := by
        intro k hk hk2
        rcases List.mem_cons.mp hmem with h | h
        · rw [← h] at hk
          have : lowerByte '\n' = 42 := by decide
          omega
        · exact h
      split
      · rename_i hb; exact hne _ hb (by decide)
      · split
        · rename_i hb; exact hne _ hb (by decide)
        · split
          · rename_i hb; exact hne _ hb (by decide)
          · exact hmem
    · exact h
  · rename_i c0 rest _
    split
    · rename_i h0
      rcases List.mem_cons.mp h with h | h
      · rw [h0] at h; exact absurd h (by decide)
      · exact h
    · exact h
  · exact h

theorem parseUint_newline (s : List Char) (bitSize : Nat) (h : '\n' ∈ s) :
    parseUint s bitSize = (0, some .syntaxErr) ∨
    parseUint s bitSize = (2 ^ bitSize - 1, some .rangeErr) := by
  unfold parseUint
  have hs : s ≠ [] := by
    intro h0
    rw [h0] at h
    simp at h
  simp only [hs, if_false]
  rcases parseUintLoop_newline (splitBase s).1 ((2 ^ 64 - 1) / (splitBase s).1 + 1)
    (2 ^ bitSize - 1) (splitBase s).2 0 false (splitBase_newline s h) with h1 | h1
  · left; rw [h1]
  · right; rw [h1]

theorem pow_pred_lt (bits : Nat) (hbits : 2 ≤ bits) :
    2 ^ (bits - 1) < 2 ^ bits - 1 := by
  obtain ⟨k, rfl⟩ : ∃ k, bits = k + 2 := ⟨bits - 2, by omega⟩
  have h1 : 2 ^ (k + 2 - 1) = 2 * 2 ^ k := by
    rw [show k + 2 - 1 = k + 1 by omega, pow_succ]; ring
  have h2 : 2 ^ (k + 2) = 4 * 2 ^ k := by
    rw [pow_succ, pow_succ]; ring
  have h3 : 1 ≤ 2 ^ k := Nat.one_le_two_pow
  omega

theorem parseInt_newline (s : String) (bits : Nat) (hbits : 2 ≤ bits)
    (h : '\n' ∈ s.data) : ∃ v e, parseInt s bits = (v, some e) := by
  unfold parseInt
  split
  · exact ⟨_, _, rfl⟩
  · rename_i c cs hdata
    rw [hdata] at h
    have hmem : '\n' ∈ (if c = '+' ∨ c = '-' then cs else c :: cs) := by
      split
      · rename_i hsign
        rcases List.mem_cons.mp h with h | h
        · rcases hsign with hs | hs <;> (rw [hs] at h; exact absurd h (by decide))
        · exact h
      · exact h
    have hlt := pow_pred_lt bits hbits
    rcases parseUint_newline _ bits hmem with h1 | h1
    · simp only [h1]
      exact ⟨_, _, rfl⟩
    · simp only [h1]
      by_cases hneg : c = '-'
      · have h2 : ¬ (decide (c = '-') = false ∧ 2 ^ bits - 1 ≥ 2 ^ (bits - 1)) := by
          simp [hneg]
        have h3 : decide (c = '-') = true ∧ 2 ^ bits - 1 > 2 ^ (bits - 1) := by
          simp [hneg]; omega
        simp only [h2, h3, if_false, and_self, if_true]
        exact ⟨_, _, rfl⟩
      · have h2 : decide (c = '-') = false ∧ 2 ^ bits - 1 ≥ 2 ^ (bits - 1) := by
          simp [hneg]; omega
        simp only [h2, and_self, if_true]
        exact ⟨_, _, rfl⟩

theorem parseBool_newline (s : String) (h : '\n' ∈ s.data) : parseBool s = none := by
  unfold parseBool
  split
  · rename_i h1
    rcases h1 with h1 | h1 | h1 | h1 | h1 | h1 <;> (rw [h1] at h; exact absurd h (by decide))
  · split
    · rename_i h1
      rcases h1 with h1 | h1 | h1 | h1 | h1 | h1 <;>
        (rw [h1] at h; exact absurd h (by decide))
    · rfl

theorem strconvParseFloat_newline (w : World) (s : String) (bits : Nat)
    (h : '\n' ∈ s.data) : strconvParseFloat w s bits = none := by
  unfold strconvParseFloat
  have hall : ¬ (s.data.all floatByte = true) := by
    intro hall
    have hb : floatByte '\n' = true := List.all_eq_true.mp hall '\n' h
    exact absurd hb (by decide)
  rw [if_neg hall]

/-- C17: for a settable field of an integer, boolean or float kind that
`Process` reaches, whose environment variable is empty and whose fallback file
holds any text followed by a newline, `Process` returns a ParseError whose
Value is the untrimmed contents of the file and leaves the field as it was
(the width of an integer field is at least 2 bits). -/
theorem trailing_newline_rejected (w : World) (configPath : String) (pre post : List Field)
    (f : Field) (lit : String) (hpre : (processFields w configPath pre).err = none)
    (hset : f.canSet = true) (henv : w.getenv (envKey w f) = "")
    (hread : w.readFile (configFile configPath f) = .ok (lit ++ "\n"))
    (hkind : f.value.isParsed = true)
    (hbits : ∀ bits n, f.value = .int bits n → 2 ≤ bits) :
    (Process w configPath (.structPtr (pre ++ f :: post))).result =
      .returned (some (.parseError (lookupName f) f.typeName (lit ++ "\n"))) ∧
    (Process w configPath (.structPtr (pre ++ f :: post))).spec =
      .structPtr ((processFields w configPath pre).fields ++ f :: post) := by
  have hnl : '\n' ∈ (lit ++ "\n").data := by
    simp [String.data_append]
  have hne : lit ++ "\n" ≠ "" := by
    intro h0
    rw [h0] at hnl
    simp at hnl
  have hres : resolve w configPath f =
      (.value (lit ++ "\n"), [.getenv (envKey w f), .readFile (configFile configPath f)]) := by
    rw [resolve_read_ok w configPath f _ henv hread, applyDefault_of_ne f _ _ hne]
  have hfails : parseFails w (lit ++ "\n") f.value = true := by
    cases hv : f.value with
    | str s0 => rw [hv] at hkind; simp [Value.isParsed] at hkind
    | other p => rw [hv] at hkind; simp [Value.isParsed] at hkind
    | int bits n =>
      obtain ⟨v, e, hp⟩ := parseInt_newline (lit ++ "\n") bits (hbits bits n hv) hnl
      simp [parseFails, hp]
    | bool b => simp [parseFails, parseBool_newline _ hnl]
    | float bits x => simp [parseFails, strconvParseFloat_newline w _ bits hnl]
  have hstep : processField w configPath f =
      (.fail (.parseError (lookupName f) f.typeName (lit ++ "\n")),
        [.getenv (envKey w f), .readFile (configFile configPath f)]) := by
    simp only [processField, hres, assign_of_parseFails w _ _ _ _ hfails]
  rw [process_reach_fail w configPath pre post f _ _ hpre hset hstep]
  exact ⟨rfl, rfl⟩

theorem trailing_newline_rejected_witness :
    ((Process (sampleWorld [] [("/etc/app/Port", "8080\n")]) "/etc/app"
          (.structPtr ([] ++ portField :: []))).result =
        .returned (some (.parseError (lookupName portField) portField.typeName
          ("8080" ++ "\n"))) ∧
      (Process (sampleWorld [] [("/etc/app/Port", "8080\n")]) "/etc/app"
          (.structPtr ([] ++ portField :: []))).spec =
        .structPtr ((processFields (sampleWorld [] [("/etc/app/Port", "8080\n")]) "/etc/app"
          []).fields ++ portField :: [])) ∧
    ((Process (floatWorld [("PORT", "8080")] [("/etc/app/Scale", "1.5\n")]) "/etc/app"
          (.structPtr ([portField] ++ scaleField :: [nameField]))).result =
        .returned (some (.parseError (lookupName scaleField) scaleField.typeName
          ("1.5" ++ "\n"))) ∧
      (Process (floatWorld [("PORT", "8080")] [("/etc/app/Scale", "1.5\n")]) "/etc/app"
          (.structPtr ([portField] ++ scaleField :: [nameField]))).spec =
        .structPtr ((processFields (floatWorld [("PORT", "8080")]
          [("/etc/app/Scale", "1.5\n")]) "/etc/app" [portField]).fields ++
            scaleField :: [nameField])) :=
  ⟨trailing_newline_rejected (sampleWorld [] [("/etc/app/Port", "8080\n")]) "/etc/app" [] []
      portField "8080" (by decide) (by decide) (by decide) (by rfl) (by decide)
      (by intro bits n h
          have h2 : bits = 64 := by
            have h3 : Value.int 64 0 = Value.int bits n := h
            injection h3 with h4 h5
            exact h4.symm
          omega),
    trailing_newline_rejected (floatWorld [("PORT", "8080")] [("/etc/app/Scale", "1.5\n")])
      "/etc/app" [portField] [nameField] scaleField "1.5" (by decide) (by decide) (by decide)
      (by rfl) (by decide)
      (by intro bits n h
          have h3 : Value.float 64 0 = Value.int bits n := h
          cases h3)⟩

/-! ## The range of an integer field -/

theorem digitsValue_ge (base : Nat) (hbase : 1 ≤ base) :
    ∀ (cs : List Char) (n m : Nat), digitsValue base cs n = some m → n ≤ m := by
  intro cs
  induction cs with
  | nil =>
    intro n m h
    simp only [digitsValue, Option.some.injEq] at h
    omega
  | cons c cs ih =>
    intro n m h
    rw [digitsValue] at h
    split at h
    · exact ih n m h
    · split at h
      · rename_i d hd
        split at h
        · have h1 := ih _ m h
          have h2 : n ≤ n * base := Nat.le_mul_of_pos_right n hbase
          omega
        · simp at h
      · simp at h

theorem parseUintLoop_spec (base maxVal : Nat) (hb1 : 1 ≤ base) (hb2 : base ≤ 16)
    (hmax : maxVal ≤ 2 ^ 64 - 1) :
    ∀ (cs : List Char) (n : Nat) (u : Bool) (m : Nat), n ≤ maxVal →
      digitsValue base cs n = some m →
      (m ≤ maxVal → ∃ u2,
        parseUintLoop base true ((2 ^ 64 - 1) / base + 1) maxVal cs n u = .ok (m, u2)) ∧
      (maxVal < m →
        parseUintLoop base true ((2 ^ 64 - 1) / base + 1) maxVal cs n u =
          .error (maxVal, .rangeErr)) := by
  intro cs
  induction cs with
  | nil =>
    intro n u m hn h
    simp only [digitsValue, Option.some.injEq] at h
    subst h
    exact ⟨fun _ => ⟨u, rfl⟩, fun h2 => by omega⟩
  | cons c cs ih =>
    intro n u m hn h
    rw [digitsValue] at h
    rw [parseUintLoop]
    by_cases hc : c = '_'
    · simp only [hc, if_true] at h
      simp only [hc, and_self, if_true]
      exact ih n true m hn h
    · simp only [hc, if_false] at h
      simp only [hc, false_and, if_false]
      cases hd : digitVal c with
      | none => rw [hd] at h; simp at h
      | some d =>
        rw [hd] at h
        simp only at h ⊢
        by_cases hdb : d < base
        · simp only [hdb, if_true] at h
          have hge := digitsValue_ge base hb1 cs _ m h
          have hnb : ¬ d ≥ base := by omega
          simp only [hnb, if_false]
          by_cases hcut : n ≥ (2 ^ 64 - 1) / base + 1
          · simp only [hcut, if_true]
            have h1 : (2 ^ 64 - 1) / base < n := by omega
            have h2 : 2 ^ 64 - 1 < n * base := (Nat.div_lt_iff_lt_mul hb1).mp h1
            exact ⟨fun h3 => by omega, fun _ => trivial⟩
          · simp only [hcut, if_false]
            have h1 : n ≤ (2 ^ 64 - 1) / base := by omega
            have h2 : n * base ≤ 2 ^ 64 - 1 := (Nat.le_div_iff_mul_le hb1).mp h1
            generalize n * base = p at h h2 hge ⊢
            have hp : p % 2 ^ 64 = p := Nat.mod_eq_of_lt (by omega)
            rw [hp]
            by_cases hov : p + d < 2 ^ 64
            · have hq : (p + d) % 2 ^ 64 = p + d := Nat.mod_eq_of_lt hov
              rw [hq]
              by_cases hbig : p + d > maxVal
              · have hcond : p + d < p ∨ p + d > maxVal := Or.inr hbig
                simp only [hcond, if_true]
                exact ⟨fun h3 => by omega, fun _ => trivial⟩
              · have hcond : ¬ (p + d < p ∨ p + d > maxVal) := by omega
                simp only [hcond, if_false]
                exact ih (p + d) u m (by omega) h
            · have hq : (p + d) % 2 ^ 64 < p := by omega
              have hcond : (p + d) % 2 ^ 64 < p ∨ (p + d) % 2 ^ 64 > maxVal := Or.inl hq
              simp only [hcond, if_true]
              exact ⟨fun h3 => by omega, fun _ => trivial⟩
        · simp only [hdb, if_false] at h
          simp at h

theorem splitBase_base (s : List Char) :
    1 ≤ (splitBase s).1 ∧ (splitBase s).1 ≤ 16 := by
  unfold splitBase
  split
  · split
    · split
      · simp
      · split
        · simp
        · split <;> simp
    · simp
  · split <;> simp
  · simp

theorem parseUint_spec (s : List Char) (bits m : Nat) (hbits : bits ≤ 64)
    (h : literalValue s = some m) :
    (m ≤ 2 ^ bits - 1 → parseUint s bits = (m, none)) ∧
    (2 ^ bits - 1 < m → parseUint s bits = (2 ^ bits - 1, some .rangeErr)) := by
  unfold literalValue at h
  split at h
  · simp at h
  · rename_i hcond
    have hs : s ≠ [] := fun h0 => hcond (Or.inl h0)
    have huok : underscoreOK s = true := by
      cases hu : underscoreOK s with
      | true => rfl
      | false => exact absurd (Or.inr hu) hcond
    have hmax : 2 ^ bits - 1 ≤ 2 ^ 64 - 1 := by
      have : 2 ^ bits ≤ 2 ^ 64 := Nat.pow_le_pow_right (by omega) hbits
      omega
    obtain ⟨hb1, hb2⟩ := splitBase_base s
    have hloop := parseUintLoop_spec (splitBase s).1 (2 ^ bits - 1) hb1 hb2 hmax
      (splitBase s).2 0 false m (by omega) h
    unfold parseUint
    simp only [hs, if_false]
    refine ⟨fun hle => ?_, fun hgt => ?_⟩
    · obtain ⟨u2, hu2⟩ := hloop.1 hle
      rw [hu2]
      simp [huok]
    · rw [hloop.2 hgt]

theorem pow_bits_split (bits : Nat) (hbits : 2 ≤ bits) :
    2 ^ bits = 2 * 2 ^ (bits - 1) ∧ 2 ≤ 2 ^ (bits - 1) := by
  obtain ⟨k, rfl⟩ : ∃ k, bits = k + 2 := ⟨bits - 2, by omega⟩
  have h1 : 2 ^ (k + 2 - 1) = 2 * 2 ^ k := by
    rw [show k + 2 - 1 = k + 1 by omega, pow_succ]; ring
  have h2 : 2 ^ (k + 2) = 4 * 2 ^ k := by
    rw [pow_succ, pow_succ]; ring
  have h3 : 1 ≤ 2 ^ k := Nat.one_le_two_pow
  omega

theorem parseInt_of_literal (c : Char) (cs digits : List Char) (bits m : Nat)
    (neg : Bool) (hlo : 2 ≤ bits) (hhi : bits ≤ 64) (hneg : neg = decide (c = '-'))
    (hdigits : (if c = '+' ∨ c = '-' then cs else c :: cs) = digits)
    (hlit : literalValue digits = some m) :
    (((neg = true ∧ m ≤ 2 ^ (bits - 1)) ∨ (neg = false ∧ m < 2 ^ (bits - 1))) →
      parseInt (String.mk (c :: cs)) bits = (if neg then -(m : Int) else (m : Int), none)) ∧
    (¬ ((neg = true ∧ m ≤ 2 ^ (bits - 1)) ∨ (neg = false ∧ m < 2 ^ (bits - 1))) →
      ∃ v e, parseInt (String.mk (c :: cs)) bits = (v, some e)) := by
  obtain ⟨hp1, hp2⟩ := pow_bits_split bits hlo
  obtain ⟨hs1, hs2⟩ := parseUint_spec digits bits m hhi hlit
  unfold parseInt
  simp only [hdigits, ← hneg]
  by_cases hm : m ≤ 2 ^ bits - 1
  · rw [hs1 hm]
    simp only
    refine ⟨fun hin => ?_, fun hout => ?_⟩
    · have h1 : ¬ (neg = false ∧ m ≥ 2 ^ (bits - 1)) := by
        rintro ⟨ha, hb⟩
        rcases hin with ⟨hc, _⟩ | ⟨_, hc⟩
        · rw [ha] at hc; simp at hc
        · omega
      have h2 : ¬ (neg = true ∧ m > 2 ^ (bits - 1)) := by
        rintro ⟨ha, hb⟩
        rcases hin with ⟨_, hc⟩ | ⟨hc, _⟩
        · omega
        · rw [ha] at hc; simp at hc
      simp only [h1, h2, if_false]
    · by_cases h1 : neg = false ∧ m ≥ 2 ^ (bits - 1)
      · simp only [h1, and_self, if_true]
        exact ⟨_, _, rfl⟩
      · have h2 : neg = true ∧ m > 2 ^ (bits - 1) := by
          cases neg with
          | true =>
            refine ⟨rfl, ?_⟩
            by_contra hc
            exact hout (Or.inl ⟨rfl, by omega⟩)
          | false =>
            exfalso
            apply hout
            right
            refine ⟨rfl, ?_⟩
            by_contra hc
            exact h1 ⟨rfl, by omega⟩
        simp only [h1, h2, and_self, if_false, if_true]
        exact ⟨_, _, rfl⟩
  · rw [hs2 (by omega)]
    simp only
    refine ⟨fun hin => ?_, fun _ => ?_⟩
    · exfalso
      rcases hin with ⟨_, hc⟩ | ⟨_, hc⟩ <;> omega
    · cases neg with
      | true =>
        have h1 : 2 ^ bits - 1 > 2 ^ (bits - 1) := by omega
        simp [h1]
      | false =>
        have h1 : 2 ^ bits - 1 ≥ 2 ^ (bits - 1) := by omega
        simp [h1]

theorem parseInt_spec (s : String) (bits : Nat) (n : Int) (hlo : 2 ≤ bits)
    (hhi : bits ≤ 64) (h : numeralValue s = some n) :
    ((-(2 : Int) ^ (bits - 1) ≤ n ∧ n ≤ (2 : Int) ^ (bits - 1) - 1) →
      parseInt s bits = (n, none)) ∧
    (¬ (-(2 : Int) ^ (bits - 1) ≤ n ∧ n ≤ (2 : Int) ^ (bits - 1) - 1) →
      ∃ v e, parseInt s bits = (v, some e)) := by
  have hcast : ((2 : Int) ^ (bits - 1)) = ((2 ^ (bits - 1) : Nat) : Int) := by
    push_cast; rfl
  rw [hcast]
  have hP : 1 ≤ 2 ^ (bits - 1) := Nat.one_le_two_pow
  unfold numeralValue at h
  cases hd : s.data with
  | nil => rw [hd] at h; simp at h
  | cons c cs =>
    have hs : s = String.mk (c :: cs) := by
      cases s
      simp only at hd
      rw [hd]
    rw [hd] at h
    rw [hs]
    by_cases hminus : c = '-'
    · have h2 : (literalValue cs).map (fun m => -(m : Int)) = some n := by
        simpa only [hminus, if_true] using h
      cases hm : literalValue cs with
      | none => rw [hm] at h2; simp at h2
      | some m =>
        rw [hm] at h2
        have hn : -(m : Int) = n := by simpa using h2
        have key := parseInt_of_literal c cs cs bits m true hlo hhi (by simp [hminus])
          (by simp [hminus]) hm
        simp only [if_true] at key
        rw [hn] at key
        generalize 2 ^ (bits - 1) = P at hP key ⊢
        subst hn
        refine ⟨fun hin => key.1 (Or.inl ⟨trivial, by omega⟩), fun hout => key.2 ?_⟩
        rintro (⟨_, hc⟩ | ⟨hc, _⟩)
        · exact hout (by omega)
        · simp at hc
    · by_cases hplus : c = '+'
      · have h2 : (literalValue cs).map (fun m => (m : Int)) = some n := by
          simpa only [hminus, hplus, if_true, if_false] using h
        cases hm : literalValue cs with
        | none => rw [hm] at h2; simp at h2
        | some m =>
          rw [hm] at h2
          have hn : (m : Int) = n := by simpa using h2
          have key := parseInt_of_literal c cs cs bits m false hlo hhi (by simp [hminus])
            (by simp [hplus]) hm
          simp only [Bool.false_eq_true, if_false] at key
          rw [hn] at key
          generalize 2 ^ (bits - 1) = P at hP key ⊢
          subst hn
          refine ⟨fun hin => key.1 (Or.inr ⟨trivial, by omega⟩), fun hout => key.2 ?_⟩
          rintro (⟨hc, _⟩ | ⟨_, hc⟩)
          · simp at hc
          · exact hout (by omega)
      · have h2 : (literalValue (c :: cs)).map (fun m => (m : Int)) = some n := by
          simpa only [hminus, hplus, if_false] using h
        cases hm : literalValue (c :: cs) with
        | none => rw [hm] at h2; simp at h2
        | some m =>
          rw [hm] at h2
          have hn : (m : Int) = n := by simpa using h2
          have key := parseInt_of_literal c cs (c :: cs) bits m false hlo hhi
            (by simp [hminus]) (by simp [hminus, hplus]) hm
          simp only [Bool.false_eq_true, if_false] at key
          rw [hn] at key
          generalize 2 ^ (bits - 1) = P at hP key ⊢
          subst hn
          refine ⟨fun hin => key.1 (Or.inr ⟨trivial, by omega⟩), fun hout => key.2 ?_⟩
          rintro (⟨hc, _⟩ | ⟨_, hc⟩)
          · simp at hc
          · exact hout (by omega)

theorem wrapInt_of_range (bits : Nat) (n : Int) (hlo : 2 ≤ bits)
    (hin : -(2 : Int) ^ (bits - 1) ≤ n ∧ n ≤ (2 : Int) ^ (bits - 1) - 1) :
    wrapInt bits n = n := by
  obtain ⟨hp1, hp2⟩ := pow_bits_split bits hlo
  have hcast : ((2 : Int) ^ (bits - 1)) = ((2 ^ (bits - 1) : Nat) : Int) := by
    push_cast; rfl
  have hcast2 : ((2 : Int) ^ bits) = ((2 ^ bits : Nat) : Int) := by
    push_cast; rfl
  unfold wrapInt
  rw [hcast] at hin ⊢
  rw [hcast2, hp1]
  generalize 2 ^ (bits - 1) = P at hin hp2 ⊢
  push_cast
  rw [Int.emod_eq_of_lt (by omega) (by omega)]
  omega

/-- C12: for a settable signed-integer field of bit width 8, 16, 32 or 64 that
`Process` reaches and whose resolved value is a numeral denoting the integer
`n` (in the base-0 notation of Go: decimal, or with a base marker, a leading
`0` meaning octal), the value is accepted exactly when
`-2^(w-1) ≤ n ≤ 2^(w-1)-1`: in that range the field ends holding `n` and the
loop goes on, and outside it `Process` returns a ParseError and the field is
left as it was. -/
theorem int_field_range (w : World) (configPath : String) (pre post : List Field)
    (f : Field) (bits : Nat) (old n : Int) (s : String)
    (hpre : (processFields w configPath pre).err = none) (hset : f.canSet = true)
    (hbits : bits = 8 ∨ bits = 16 ∨ bits = 32 ∨ bits = 64)
    (hkind : f.value = .int bits old) (hval : (resolve w configPath f).1 = .value s)
    (hnum : numeralValue s = some n) :
    ((-(2 : Int) ^ (bits - 1) ≤ n ∧ n ≤ (2 : Int) ^ (bits - 1) - 1) →
      (Process w configPath (.structPtr (pre ++ f :: post))).fieldAt pre.length =
          some (f.withValue (.int bits n)) ∧
        (Process w configPath (.structPtr (pre ++ f :: post))).result =
          .returned (processFields w configPath post).err) ∧
    (¬ (-(2 : Int) ^ (bits - 1) ≤ n ∧ n ≤ (2 : Int) ^ (bits - 1) - 1) →
      (Process w configPath (.structPtr (pre ++ f :: post))).result =
          .returned (some (.parseError (lookupName f) f.typeName s)) ∧
        (Process w configPath (.structPtr (pre ++ f :: post))).fieldAt pre.length =
          some f) := by
  have hlo : 2 ≤ bits := by omega
  have hhi : bits ≤ 64 := by omega
  obtain ⟨hacc, hrej⟩ := parseInt_spec s bits n hlo hhi hnum
  rcases hres : resolve w configPath f with ⟨r, tr⟩
  rw [hres] at hval
  simp only at hval
  subst hval
  refine ⟨fun hin => ?_, fun hout => ?_⟩
  · have hstep : processField w configPath f = (.next (.int bits n), tr) := by
      simp only [processField, hres, hkind, assign, hacc hin,
        wrapInt_of_range bits n hlo hin]
    rw [process_reach_next w configPath pre post f _ _ hpre hset hstep]
    exact ⟨fieldAt_mid w configPath pre _ _ _ _, rfl⟩
  · obtain ⟨v, e, hp⟩ := hrej hout
    have hstep : processField w configPath f =
        (.fail (.parseError (lookupName f) f.typeName s), tr) := by
      simp only [processField, hres, hkind, assign, hp]
    rw [process_reach_fail w configPath pre post f _ _ hpre hset hstep]
    exact ⟨rfl, fieldAt_mid w configPath pre _ _ _ _⟩

theorem int_field_range_witness :
    (Process (sampleWorld [("PORT", "8080")] []) "/etc/app"
        (.structPtr ([] ++ portField :: [nameField]))).fieldAt 0 =
      some (portField.withValue (.int 64 8080)) :=
  ((int_field_range (sampleWorld [("PORT", "8080")] []) "/etc/app" [] [nameField] portField
    64 0 8080 "8080" (by decide) (by decide) (by decide) rfl (by decide) (by decide)).1
      (by norm_num)).1

end Goutil
